import Mathlib

/-!
Verification development for the nemo materialization engine
(columnar tries, interval columns, trie scans, semi-naive chase,
dictionary contract, DSV handler, materializer).

The definitions below are shallow embeddings of the Rust sources in
`nemo-physical` and `nemo`; a few components whose source files are not part
of the audited tree (the sorted tuple buffer, the single-column interval
lookup, the trie-scan trait, the dictionary implementations, the body join
helper) are modelled from the specification, and are marked as such in
their doc comments.
-/

set_option maxHeartbeats 1000000

/-! ### Storage types and storage values

Embeds `StorageTypeName` and `StorageValueT` from
`nemo-physical/src/datatypes`.  The `Float`/`Double` payloads of nemo are
NaN-free wrappers with a total order; the claims below use them only through
order and equality, so their payloads are represented by `Int`. -/

inductive StorageTypeName where
  | id32 | id64 | int64 | float | double
deriving DecidableEq, Repr, Inhabited

/-- Position of a storage type in the fixed order `Id32 < Id64 < Int64 < Float < Double`. -/
def StorageTypeName.rank : StorageTypeName → Nat
  | .id32 => 0
  | .id64 => 1
  | .int64 => 2
  | .float => 3
  | .double => 4

/-- The fixed order of the five storage types. -/
def typeOrderList : List StorageTypeName :=
  [.id32, .id64, .int64, .float, .double]

inductive StorageValueT where
  | id32 (v : Nat)
  | id64 (v : Nat)
  | int64 (v : Int)
  | float (v : Int)
  | double (v : Int)
deriving DecidableEq, Repr, Inhabited

def StorageValueT.vtype : StorageValueT → StorageTypeName
  | .id32 _ => .id32
  | .id64 _ => .id64
  | .int64 _ => .int64
  | .float _ => .float
  | .double _ => .double

/-- Payload of a storage value; values of equal storage type are compared by payload. -/
def StorageValueT.payload : StorageValueT → Int
  | .id32 v => (v : Int)
  | .id64 v => (v : Int)
  | .int64 v => v
  | .float v => v
  | .double v => v

/-- Strict total order on storage values: storage type rank first
(`Id32 < Id64 < Int64 < Float < Double`), then payload. -/
def svLtb (a b : StorageValueT) : Bool :=
  a.vtype.rank < b.vtype.rank ∨ (a.vtype.rank = b.vtype.rank ∧ a.payload < b.payload)

def svLeb (a b : StorageValueT) : Bool := svLtb a b || a == b

def svLt (a b : StorageValueT) : Prop := svLtb a b = true

def svLe (a b : StorageValueT) : Prop := svLeb a b = true

instance (a b : StorageValueT) : Decidable (svLt a b) :=
  inferInstanceAs (Decidable (svLtb a b = true))

instance (a b : StorageValueT) : Decidable (svLe a b) :=
  inferInstanceAs (Decidable (svLeb a b = true))

/-- Lexicographic strict order on rows of storage values
(the order of the sorted tuple buffer). -/
def rowLtb : List StorageValueT → List StorageValueT → Bool
  | [], [] => false
  | [], _ :: _ => true
  | _ :: _, [] => false
  | a :: as, b :: bs => if a = b then rowLtb as bs else svLtb a b

def rowLe (r s : List StorageValueT) : Prop := rowLtb r s = true ∨ r = s

instance (r s : List StorageValueT) : Decidable (rowLe r s) :=
  inferInstanceAs (Decidable (rowLtb r s = true ∨ r = s))

/-! ### Interval columns

Embedding of `nemo-physical/src/columnar/intervalcolumn.rs`.  One
`IntervalColumn` holds the data of a single storage type of one trie layer;
the source parametrizes the data column by the Rust payload type
(`u32`, `u64`, `i64`, `Float`, `Double`), here the variant tag of
`StorageValueT` carries the same information.

Modelled from the spec: the `interval_lookup` field stands for the missing
`IntervalLookupColumnSingle` (nemo's single-column interval lookup, §4.3 of
the spec: one `predecessor_to_start_index[]` with a sentinel for childless
predecessors and the end inferred from the next non-empty predecessor's
start).  The builder protocol of `intervalcolumn.rs` records, at every
`finish_interval`, the cumulative data count (`self.interval.add(self.data.count())`),
so the lookup is represented by that list of cumulative counts: predecessor
`p` owns the half-open range from count `p-1` (or `0`) to count `p`, and has
no children (the sentinel case) when the two counts agree.  This
reproduces every `interval_bounds` assertion of the unit tests in
`intervalcolumn.rs`. -/

structure IntervalColumn where
  data : List StorageValueT
  interval_lookup : List Nat
deriving Repr, Inhabited, DecidableEq

def IntervalColumn.len (c : IntervalColumn) : Nat := c.data.length

/-- Start of the interval of predecessor `index`: the previous cumulative
count (or `0` for the first predecessor). -/
def IntervalColumn.intervalStart (c : IntervalColumn) (index : Nat) : Nat :=
  if index = 0 then 0 else c.interval_lookup.getD (index - 1) 0

/-- Half-open interval of data indices owned by predecessor `index`,
`none` when the predecessor has no children. -/
def IntervalColumn.interval_bounds (c : IntervalColumn) (index : Nat) :
    Option (Nat × Nat) :=
  match c.interval_lookup.get? index with
  | none => none
  | some e =>
      if c.intervalStart index < e then some (c.intervalStart index, e) else none

/-- One trie layer: an `IntervalColumn` for each `StorageTypeName` plus the
array of cumulative column lengths (`column_starts`), from
`IntervalColumnT` in `intervalcolumn.rs`. -/
structure IntervalColumnT where
  column_id32 : IntervalColumn
  column_id64 : IntervalColumn
  column_int64 : IntervalColumn
  column_float : IntervalColumn
  column_double : IntervalColumn
  column_starts : List Nat
deriving Repr, Inhabited, DecidableEq

/-- Constructor of `IntervalColumnT`: computes `column_starts` as the
cumulative sums of the five column lengths, exactly as
`IntervalColumnT::new`. -/
def IntervalColumnT.new (c32 c64 ci cf cd : IntervalColumn) : IntervalColumnT where
  column_id32 := c32
  column_id64 := c64
  column_int64 := ci
  column_float := cf
  column_double := cd
  column_starts :=
    [ c32.len
    , c32.len + c64.len
    , c32.len + c64.len + ci.len
    , c32.len + c64.len + ci.len + cf.len
    , c32.len + c64.len + ci.len + cf.len + cd.len ]

def IntervalColumnT.columnOf (col : IntervalColumnT) : StorageTypeName → IntervalColumn
  | .id32 => col.column_id32
  | .id64 => col.column_id64
  | .int64 => col.column_int64
  | .float => col.column_float
  | .double => col.column_double

def IntervalColumnT.dataOf (col : IntervalColumnT) (t : StorageTypeName) :
    List StorageValueT :=
  (col.columnOf t).data

/-- Global index of a value from its storage type and local index,
from `IntervalColumnT::global_index`. -/
def IntervalColumnT.global_index (col : IntervalColumnT)
    (storage_type : StorageTypeName) (local_index : Nat) : Nat :=
  local_index +
    match storage_type with
    | .id32 => 0
    | .id64 => col.column_starts.getD 0 0
    | .int64 => col.column_starts.getD 1 0
    | .float => col.column_starts.getD 2 0
    | .double => col.column_starts.getD 3 0

/-- Interval bounds of the children (in the data column of the given storage
type) of the previous layer's value with the given global index, from
`IntervalColumnT::interval_bounds`. -/
def IntervalColumnT.interval_bounds (col : IntervalColumnT)
    (storage_type : StorageTypeName) (index : Nat) : Option (Nat × Nat) :=
  (col.columnOf storage_type).interval_bounds index

/-! ### Interval column builders (from `intervalcolumn.rs`) -/

/-- Builder of one `IntervalColumn` (`IntervalColumnBuilder`): accumulates
data values; `finish_interval` records the current data count in the
interval-lookup builder. -/
structure IntervalColumnBuilder where
  data : List StorageValueT
  interval : List Nat
deriving Repr, Inhabited

def IntervalColumnBuilder.add_data (b : IntervalColumnBuilder)
    (value : StorageValueT) : IntervalColumnBuilder :=
  { b with data := b.data ++ [value] }

def IntervalColumnBuilder.finish_interval (b : IntervalColumnBuilder) :
    IntervalColumnBuilder :=
  { b with interval := b.interval ++ [b.data.length] }

def IntervalColumnBuilder.finalize (b : IntervalColumnBuilder) : IntervalColumn :=
  ⟨b.data, b.interval⟩

/-- Builder of an `IntervalColumnT` from a table in matrix form
(`IntervalColumnTBuilderMatrix`): one `IntervalColumnBuilder` per storage
type plus the cached data item used for deduplication. -/
structure IntervalColumnTBuilderMatrix where
  builder_id32 : IntervalColumnBuilder
  builder_id64 : IntervalColumnBuilder
  builder_int64 : IntervalColumnBuilder
  builder_float : IntervalColumnBuilder
  builder_double : IntervalColumnBuilder
  current_data_item : Option StorageValueT
deriving Repr, Inhabited

namespace IntervalColumnTBuilderMatrix

/-- Route a value into the data builder of its storage type. -/
def route (b : IntervalColumnTBuilderMatrix) (value : StorageValueT) :
    IntervalColumnTBuilderMatrix :=
  match value.vtype with
  | .id32 => { b with builder_id32 := b.builder_id32.add_data value }
  | .id64 => { b with builder_id64 := b.builder_id64.add_data value }
  | .int64 => { b with builder_int64 := b.builder_int64.add_data value }
  | .float => { b with builder_float := b.builder_float.add_data value }
  | .double => { b with builder_double := b.builder_double.add_data value }

/-- Add the currently cached value into the data column builder
(`commit_value`). -/
def commit_value (b : IntervalColumnTBuilderMatrix) : IntervalColumnTBuilderMatrix :=
  match b.current_data_item with
  | none => b
  | some value => b.route value

/-- Add a new value into the builder (`add_value`).  Returns `true` iff the
value differs from the last added value (the `false` case adds nothing:
duplicates within one predecessor block are dropped). -/
def add_value (b : IntervalColumnTBuilderMatrix) (value : StorageValueT) :
    Bool × IntervalColumnTBuilderMatrix :=
  match b.current_data_item with
  | none => (true, { b with current_data_item := some value })
  | some current_value =>
      if current_value = value then (false, b)
      else (true, { b.commit_value with current_data_item := some value })

/-- Close the current interval (`finish_interval`): commit the cached value,
record the interval end in all five interval builders, clear the cache. -/
def finish_interval (b : IntervalColumnTBuilderMatrix) : IntervalColumnTBuilderMatrix :=
  let b := b.commit_value
  { builder_id32 := b.builder_id32.finish_interval
    builder_id64 := b.builder_id64.finish_interval
    builder_int64 := b.builder_int64.finish_interval
    builder_float := b.builder_float.finish_interval
    builder_double := b.builder_double.finish_interval
    current_data_item := none }

def finalize (b : IntervalColumnTBuilderMatrix) : IntervalColumnT :=
  IntervalColumnT.new b.builder_id32.finalize b.builder_id64.finalize
    b.builder_int64.finalize b.builder_float.finalize b.builder_double.finalize

end IntervalColumnTBuilderMatrix

/-- Builder of an `IntervalColumnT` from a trie scan
(`IntervalColumnTBuilderTriescan`): like the matrix builder but without the
deduplicating cache. -/
structure IntervalColumnTBuilderTriescan where
  builder_id32 : IntervalColumnBuilder
  builder_id64 : IntervalColumnBuilder
  builder_int64 : IntervalColumnBuilder
  builder_float : IntervalColumnBuilder
  builder_double : IntervalColumnBuilder
deriving Repr, Inhabited

namespace IntervalColumnTBuilderTriescan

def add_value (b : IntervalColumnTBuilderTriescan) (value : StorageValueT) :
    IntervalColumnTBuilderTriescan :=
  match value.vtype with
  | .id32 => { b with builder_id32 := b.builder_id32.add_data value }
  | .id64 => { b with builder_id64 := b.builder_id64.add_data value }
  | .int64 => { b with builder_int64 := b.builder_int64.add_data value }
  | .float => { b with builder_float := b.builder_float.add_data value }
  | .double => { b with builder_double := b.builder_double.add_data value }

def finish_interval (b : IntervalColumnTBuilderTriescan) :
    IntervalColumnTBuilderTriescan where
  builder_id32 := b.builder_id32.finish_interval
  builder_id64 := b.builder_id64.finish_interval
  builder_int64 := b.builder_int64.finish_interval
  builder_float := b.builder_float.finish_interval
  builder_double := b.builder_double.finish_interval

def finalize (b : IntervalColumnTBuilderTriescan) : IntervalColumnT :=
  IntervalColumnT.new b.builder_id32.finalize b.builder_id64.finalize
    b.builder_int64.finalize b.builder_float.finalize b.builder_double.finalize

end IntervalColumnTBuilderTriescan

/-! ### Tries (from `nemo-physical/src/tabular/trie.rs`) -/

structure Trie where
  columns : List IntervalColumnT
deriving Repr, Inhabited

def Trie.arity (t : Trie) : Nat := t.columns.length

/-- Inner loop of `Trie::from_tuple_buffer` for one column: walk the column
values in tuple order; when the next entry of the previous column's interval
list is reached, close the current interval and move to the next
predecessor; record in `acc` the tuple indices (`> 0`) at which `add_value`
reported a new value.  The cursor `predecessor_index` into
`last_tuple_intervals` of the source is represented by consuming the list
from the front. -/
def matrixColumnLoop (b : IntervalColumnTBuilderMatrix) (bounds : List Nat)
    (j : Nat) (vals : List StorageValueT) (acc : List Nat) :
    IntervalColumnTBuilderMatrix × List Nat :=
  match vals with
  | [] => (b.finish_interval, acc)
  | v :: rest =>
      let fired := bounds.head? = some j
      let b := if fired then b.finish_interval else b
      let bounds := if fired then bounds.tail else bounds
      let nv := b.add_value v
      let acc := if nv.1 ∧ 0 < j then acc ++ [j] else acc
      matrixColumnLoop nv.2 bounds (j + 1) rest acc

/-- Column-by-column outer loop of `Trie::from_tuple_buffer`:
`last` is `last_tuple_intervals` from the previous column. -/
def fromTupleBufferAux (rows : List (List StorageValueT)) :
    List Nat → List Nat → List IntervalColumnT
  | [], _ => []
  | c :: cs, last =>
      let values := rows.map (fun r => r.getD c default)
      let (b, current) := matrixColumnLoop default last 0 values []
      b.finalize :: fromTupleBufferAux rows cs current

/-- Build a trie from a sorted tuple buffer (`Trie::from_tuple_buffer`).

Modelled from the spec: the missing `SortedTupleBuffer` is represented by
the list of its rows in sorted order (`get_column i` enumerates column `i`
in that tuple order). -/
def Trie.from_tuple_buffer (arity : Nat) (rows : List (List StorageValueT)) : Trie :=
  ⟨fromTupleBufferAux rows (List.range arity) []⟩

/-- First position at which two rows differ. -/
def firstDiff : List StorageValueT → List StorageValueT → Nat
  | a :: as, b :: bs => if a = b then firstDiff as bs + 1 else 0
  | _, _ => 0

/-- Remove adjacent duplicates. -/
def dedupAdj : List (List StorageValueT) → List (List StorageValueT)
  | [] => []
  | [r] => [r]
  | r :: s :: rest => if r = s then dedupAdj (s :: rest) else r :: dedupAdj (s :: rest)

/-- Apply one advance step of `Trie::from_trie_scan` to the builder list:
for every layer from `changed` on, add the current value, and close the
interval on layers other than `changed` (transcribing the loop body,
including its add-then-finish order). -/
def triescanStep (builders : List IntervalColumnTBuilderTriescan)
    (changed : Nat) (row : List StorageValueT) :
    List IntervalColumnTBuilderTriescan :=
  builders.mapIdx (fun layer b =>
    if layer < changed then b
    else
      let b := b.add_value (row.getD layer default)
      if layer ≠ changed then b.finish_interval else b)

/-- Loop of `Trie::from_trie_scan` over the stream of scan results.

Modelled from the spec: the missing `TrieScan` trait is represented by the
list of tuples the scan produces in lexicographic order;
`advance_on_layer(num_columns - 1)` yields, per tuple, the smallest layer
whose value changed (`0` for the first tuple). -/
def triescanLoop (builders : List IntervalColumnTBuilderTriescan) :
    Option (List StorageValueT) → List (List StorageValueT) →
    List IntervalColumnTBuilderTriescan
  | _, [] => builders
  | prev, row :: rest =>
      let changed := match prev with
        | none => 0
        | some p => firstDiff p row
      triescanLoop (triescanStep builders changed row) (some row) rest

/-- Build a trie from a trie scan (`Trie::from_trie_scan`), discarding the
final `cut_layers` layers. -/
def Trie.from_trie_scan (scanRows : List (List StorageValueT))
    (num_columns cut_layers : Nat) : Trie :=
  let num := num_columns - cut_layers
  let stream := dedupAdj (scanRows.map (fun r => r.take num))
  ⟨(triescanLoop (List.replicate num default) none stream).map
    IntervalColumnTBuilderTriescan.finalize⟩

/-! ### Enumerating the rows of a trie

Models the depth-first traversal of `TrieScanGeneric` (`down`/`up`/`next`):
at the root the first layer's scan ranges over the full data column of each
storage type; below, `down` narrows the next layer to the interval obtained
from the next layer's interval lookup at the current element's global index
(empty range when there are no children of that type); storage types are
visited in the fixed order and values within a narrowed range in ascending
position. -/

def sliceD (data : List StorageValueT) (s e : Nat) : List StorageValueT :=
  (data.drop s).take (e - s)

/-- All (storage type, local index) positions selected by per-type ranges,
in traversal order. -/
def rangePositions (ranges : StorageTypeName → Nat × Nat) :
    List (StorageTypeName × Nat) :=
  typeOrderList.flatMap (fun t =>
    (List.range ((ranges t).2 - (ranges t).1)).map (fun k => (t, (ranges t).1 + k)))

def trieEnumGo : List IntervalColumnT → (StorageTypeName → Nat × Nat) →
    List (List StorageValueT)
  | [], _ => []
  | col :: rest, ranges =>
      (rangePositions ranges).flatMap (fun tl =>
        let v := (col.dataOf tl.1).getD tl.2 default
        match rest with
        | [] => [[v]]
        | next :: _ =>
            let g := col.global_index tl.1 tl.2
            (trieEnumGo rest
              (fun t' => (next.interval_bounds t' g).getD (0, 0))).map (v :: ·))

/-- The rows of a trie in the order produced by a full `TrieScanGeneric`
traversal. -/
def trieEnum (t : Trie) : List (List StorageValueT) :=
  trieEnumGo t.columns
    (fun ty =>
      match t.columns with
      | [] => (0, 0)
      | col :: _ => (0, (col.dataOf ty).length))

/-! ### Trie scans (from `trie.rs`: `TrieScanGeneric`)

The per-layer `ColumnScanRainbow` (whose source file is not part of the
audited tree) is represented by the observable state `down` manipulates: an
active window and a current position per storage type.  `narrow` sets one
type's window and clears its position; `reset` restores one type's window to
the full column. -/

structure ColumnScanRainbow where
  ranges : StorageTypeName → Nat × Nat
  posn : StorageTypeName → Option Nat

instance : Inhabited ColumnScanRainbow :=
  ⟨⟨fun _ => (0, 0), fun _ => none⟩⟩

def ColumnScanRainbow.narrow (s : ColumnScanRainbow) (t : StorageTypeName)
    (interval : Nat × Nat) : ColumnScanRainbow where
  ranges := fun t' => if t' = t then interval else s.ranges t'
  posn := fun t' => if t' = t then none else s.posn t'

def ColumnScanRainbow.reset (s : ColumnScanRainbow) (t : StorageTypeName)
    (full : Nat) : ColumnScanRainbow :=
  s.narrow t (0, full)

structure TrieScanGeneric where
  trie : Trie
  path_types : List StorageTypeName
  column_scans : List ColumnScanRainbow

/-- Transcription of `TrieScanGeneric::up`: popping the last path type.  The
source guards the call with a `debug_assert!` that the scan is not in the
starting position; the violated contract is the `none` case. -/
def TrieScanGeneric.up (s : TrieScanGeneric) : Option TrieScanGeneric :=
  if s.path_types.isEmpty then none
  else some { s with path_types := s.path_types.dropLast }

/-- Transcription of `TrieScanGeneric::down`.  At the root, the first
layer's scan of the requested type is reset to the full column.  Below the
root, the current layer's scan must be positioned on an element (the
`expect` in the source; its violation is the `none` case); the next layer's
scan of the requested type is narrowed to the interval obtained from the
next layer's interval lookup at the current element's global index, with the
empty interval `(0, 0)` when there are no children of that type
(`unwrap_or(0..0)`). -/
def TrieScanGeneric.down (s : TrieScanGeneric) (next_type : StorageTypeName) :
    Option TrieScanGeneric :=
  if s.path_types.length < s.column_scans.length then
    match s.path_types.getLast? with
    | none =>
        let full :=
          match s.trie.columns with
          | [] => 0
          | col :: _ => (col.dataOf next_type).length
        some { s with
          column_scans := s.column_scans.set 0
            ((s.column_scans.getD 0 default).reset next_type full)
          path_types := s.path_types ++ [next_type] }
    | some current_type =>
        let next_layer := s.path_types.length
        let current_layer := next_layer - 1
        match (s.column_scans.getD current_layer default).posn current_type with
        | none => none
        | some local_index =>
            let global_index :=
              (s.trie.columns.getD current_layer default).global_index
                current_type local_index
            let next_interval :=
              ((s.trie.columns.getD next_layer default).interval_bounds
                next_type global_index).getD (0, 0)
            some { s with
              column_scans := s.column_scans.set next_layer
                ((s.column_scans.getD next_layer default).narrow next_type next_interval)
              path_types := s.path_types ++ [next_type] }
  else none

/-! ### Chase engine: naive and semi-naive materialization

Modelled from the spec: the body join helper `seminaive_join` called by
`SeminaiveStrategy::add_body_tree` (`plan_body_seminaive.rs`) is not part of
the audited tree; §4.10 of the spec describes the plan it builds.  A rule is
represented by its list of positive body atoms (a predicate per atom) and a
joint match function: given one tuple per atom, `matchRel` yields the head
tuple produced by that combination of body facts, or `none` when the atoms
do not join.  Evaluating a rule against a database collects the head tuples
of all combinations drawn from the atoms' tables. -/

namespace Chase

abbrev Tup := List Nat

structure Rule where
  numAtoms : Nat
  atomPred : Fin numAtoms → Nat
  headPred : Nat
  matchRel : (Fin numAtoms → Tup) → Option Tup

/-- All head tuples derivable by one rule from a database (one table of
tuples per predicate): naive evaluation reads the full table of every
atom. -/
def RuleEval (r : Rule) (db : Nat → Set Tup) : Set Tup :=
  { h | ∃ choice : Fin r.numAtoms → Tup,
      (∀ i, choice i ∈ db (r.atomPred i)) ∧ r.matchRel choice = some h }

/-- Semi-naive delta evaluation of one rule, modelled from the spec
(§4.10, step 1): for each positive atom `A_i`, atom `i` reads only the
subtables of the delta range `[last_applied..step)` while every other atom
reads the full range `[0..step)`; the results are unioned over the choices
of `i`. -/
def RuleEvalDelta (r : Rule) (dbFull dbNew : Nat → Set Tup) : Set Tup :=
  { h | ∃ i : Fin r.numAtoms, ∃ choice : Fin r.numAtoms → Tup,
      choice i ∈ dbNew (r.atomPred i) ∧
      (∀ j, j ≠ i → choice j ∈ dbFull (r.atomPred j)) ∧
      r.matchRel choice = some h }

abbrev Program := List Rule

/-- One naive chase round: every rule recomputes all matches against the
current database and the results are added to its head predicate. -/
def naiveStep (P : Program) (db : Nat → Set Tup) : Nat → Set Tup :=
  fun p => db p ∪ { h | ∃ r ∈ P, r.headPred = p ∧ h ∈ RuleEval r db }

/-- Database after `k` naive rounds, starting from the EDB. -/
def naiveDB (P : Program) (edb : Nat → Set Tup) : Nat → Nat → Set Tup
  | 0 => edb
  | k + 1 => naiveStep P (naiveDB P edb k)

/-- The tuples added by one semi-naive round: every rule joins with one atom
restricted to the previous round's delta. -/
def semiDelta (P : Program) (db delta : Nat → Set Tup) : Nat → Set Tup :=
  fun p => { h | ∃ r ∈ P, r.headPred = p ∧ h ∈ RuleEvalDelta r db delta }

/-- One semi-naive chase round on the state (cumulative database, delta of
the previous round). -/
def semiStep (P : Program) (st : (Nat → Set Tup) × (Nat → Set Tup)) :
    (Nat → Set Tup) × (Nat → Set Tup) :=
  (fun p => st.1 p ∪ semiDelta P st.1 st.2 p, semiDelta P st.1 st.2)

/-- Semi-naive state after `k` rounds: initially the cumulative database and
the delta both consist of the EDB subtables of step `0` (a rule's first
application has `last_applied = 0`, so its delta range is the full EDB). -/
def semiState (P : Program) (edb : Nat → Set Tup) :
    Nat → (Nat → Set Tup) × (Nat → Set Tup)
  | 0 => (edb, edb)
  | k + 1 => semiStep P (semiState P edb k)

/-- Database after `k` semi-naive rounds. -/
def semiDB (P : Program) (edb : Nat → Set Tup) (k : Nat) : Nat → Set Tup :=
  (semiState P edb k).1

end Chase

/-! ### Dictionary contract (from `datavalue_dictionary.rs`)

The `DvDict` trait in the audited tree carries only the contract; its
implementations live elsewhere.  Modelled from the spec (§4.1 and the trait
documentation): a reference dictionary state holds the list of retrievable
values (the id of a value is its position, ids are assigned by appending)
and the list of values that were only marked. -/

/-- Fake id for entries that have no id (`usize::MAX` on 64-bit targets). -/
def NONEXISTING_ID_MARK : Nat := 2 ^ 64 - 1

/-- Fake id for marked entries (`usize::MAX - 1`). -/
def KNOWN_ID_MARK : Nat := NONEXISTING_ID_MARK - 1

namespace Dict

inductive AddResult where
  | fresh (id : Nat)
  | known (id : Nat)
  | rejected
deriving DecidableEq, Repr

structure DvDict (α : Type) where
  stored : List α
  marked : List α
deriving Repr

variable {α : Type} [DecidableEq α]

/-- First position of a value in a list, if any. -/
def firstIdx (v : α) : List α → Option Nat
  | [] => none
  | x :: xs => if x = v then some 0 else (firstIdx v xs).map (· + 1)

/-- Modelled from the spec: `DvDict::datavalue_to_id`; marked values map to
`KNOWN_ID_MARK`. -/
def datavalue_to_id (d : DvDict α) (v : α) : Option Nat :=
  match firstIdx v d.stored with
  | some i => some i
  | none => if v ∈ d.marked then some KNOWN_ID_MARK else none

/-- Modelled from the spec: `DvDict::id_to_datavalue`; marked-only values
(virtual id `KNOWN_ID_MARK`) yield `none`. -/
def id_to_datavalue (d : DvDict α) (id : Nat) : Option α :=
  d.stored.get? id

/-- Modelled from the spec: `DvDict::add_datavalue`: a previously marked
value stays at the virtual id `KNOWN_ID_MARK`; a stored value keeps its id;
otherwise a fresh id (the next position) is assigned. -/
def add_datavalue (d : DvDict α) (v : α) : AddResult × DvDict α :=
  if v ∈ d.marked then (.known KNOWN_ID_MARK, d)
  else
    match firstIdx v d.stored with
    | some i => (.known i, d)
    | none => (.fresh d.stored.length, ⟨d.stored ++ [v], d.marked⟩)

/-- Modelled from the spec: `DvDict::mark_dv`: an existing entry keeps its
id, otherwise the value is recorded as marked with the virtual id
`KNOWN_ID_MARK`. -/
def mark_dv (d : DvDict α) (v : α) : AddResult × DvDict α :=
  match firstIdx v d.stored with
  | some i => (.known i, d)
  | none =>
      if v ∈ d.marked then (.known KNOWN_ID_MARK, d)
      else (.fresh KNOWN_ID_MARK, ⟨d.stored, d.marked ++ [v]⟩)

/-- Number of retrievable entries (`DvDict::len`): marked-only values are
not counted. -/
def dictLen (d : DvDict α) : Nat := d.stored.length

/-- Well-formedness of a dictionary state: no duplicate ids, and marked-only
values are disjoint from stored ones. -/
def WF (d : DvDict α) : Prop :=
  d.stored.Nodup ∧ ∀ v ∈ d.marked, v ∉ d.stored

/-- Reachability by dictionary operations ("subsequent" states). -/
inductive Reaches : DvDict α → DvDict α → Prop where
  | refl (d : DvDict α) : Reaches d d
  | add (d d' : DvDict α) (v : α) : Reaches d d' → Reaches d (add_datavalue d' v).2
  | mark (d d' : DvDict α) (v : α) : Reaches d d' → Reaches d (mark_dv d' v).2

end Dict

/-! ### Execution plan nodes for negation
(from `nemo/src/execution/planning/operations/negation.rs`)

The execution-plan DAG is represented by the tree of nodes reachable from
the returned node.  Operation tables (variable markers) are lists of marker
ids; constraints are abstract ids interpreted by a satisfaction relation
when the plan is read denotationally. -/

namespace Plan

/-- Execution plan nodes (the fragment reachable from `node_negation`):
loading one subtable, union, filtering by constraints
(`node_filter`), and subtraction. -/
inductive ExecutionNode where
  | fetchTable (pred : Nat) (step : Nat)
  | union (subnodes : List ExecutionNode)
  | filterBy (constraints : List Nat) (subnode : ExecutionNode)
  | subtract (main : ExecutionNode) (subtracted : List ExecutionNode)
deriving Repr

structure VariableAtom where
  predicate : Nat
deriving Repr

/-- Modelled from the spec (§4.9 `union_scan`): `subplan_union` returns the
union of the subtables of one predicate over a step range. -/
def subplan_union (predicate : Nat) (steps : List Nat) : ExecutionNode :=
  .union (steps.map (fun step => .fetchTable predicate step))

/-- Modelled from the spec (§4.10, step 3): `node_filter` applies a list of
constraints to a node's stream. -/
def node_filter (constraints : List Nat) (node : ExecutionNode) : ExecutionNode :=
  .filterBy constraints node

/-- Transcription of `node_negation`: for every negated atom, union that
atom's subtables over `0..current_step_number`, apply all the given
constraints to the result, and subtract all such subtrahends from the main
node. -/
def node_negation (node_main : ExecutionNode) (current_step_number : Nat)
    (subtracted_atoms : List VariableAtom) (subtracted_filters : List Nat) :
    ExecutionNode :=
  let subtracted := subtracted_atoms.map (fun atom =>
    let node := subplan_union atom.predicate (List.range current_step_number)
    node_filter subtracted_filters node)
  .subtract node_main subtracted

/-- Denotational reading of a plan node: `tables` gives the rows of each
`(predicate, step)` subtable, `sat` the rows satisfying each constraint. -/
def sem (tables : Nat → Nat → Set Chase.Tup) (sat : Nat → Chase.Tup → Prop) :
    ExecutionNode → Set Chase.Tup
  | .fetchTable pred step => tables pred step
  | .union subnodes =>
      { t | ∃ n : { x // x ∈ subnodes }, t ∈ sem tables sat n.1 }
  | .filterBy constraints subnode =>
      { t | t ∈ sem tables sat subnode ∧ ∀ c ∈ constraints, sat c t }
  | .subtract main subtracted =>
      { t | t ∈ sem tables sat main ∧
        ∀ n : { x // x ∈ subtracted }, t ∉ sem tables sat n.1 }
decreasing_by
  all_goals simp_wf
  all_goals first
    | omega
    | (have h := List.sizeOf_lt_of_mem n.2; omega)

end Plan

/-! ### DSV handler (from `nemo/src/io/formats/dsv.rs`)

Strings of attribute values are represented by their byte lists; the comma
byte is `44`, the tab byte `9`. -/

namespace Dsv

inductive DsvVariant where
  | DSV | CSV | TSV
deriving DecidableEq, Repr

inductive FileFormat where
  | CSV | DSV | TSV
deriving DecidableEq, Repr

inductive ImportExportError where
  | invalidAttValue
  | missingAttribute
  | unknownAttribute
deriving DecidableEq, Repr

/-- Transcription of `DsvHandler::extract_delimiter`; `delimAttr` is the
result of `extract_string` for the delimiter attribute (`none` when the
attribute is absent). -/
def extract_delimiter (variant : DsvVariant) (delimAttr : Option (List Nat)) :
    Except ImportExportError Nat :=
  match delimAttr with
  | some bytes =>
      if bytes.length = 1 then
        match variant with
        | .DSV => .ok (bytes.getD 0 0)
        | .CSV => .error .unknownAttribute
        | .TSV => .error .unknownAttribute
      else .error .invalidAttValue
  | none =>
      match variant with
      | .DSV => .error .missingAttribute
      | .CSV => .ok 44
      | .TSV => .ok 44

structure DsvHandler where
  delimiter : Nat
deriving DecidableEq, Repr

/-- Delimiter part of `DsvHandler::try_new` (resource and value formats are
independent of the variant and the delimiter). -/
def DsvHandler.try_new (variant : DsvVariant) (delimAttr : Option (List Nat)) :
    Except ImportExportError DsvHandler :=
  (extract_delimiter variant delimAttr).map (fun d => ⟨d⟩)

/-- Transcription of `DsvHandler::try_new_tsv`. -/
def DsvHandler.try_new_tsv (delimAttr : Option (List Nat)) :
    Except ImportExportError DsvHandler :=
  DsvHandler.try_new .TSV delimAttr

/-- Transcription of `DsvHandler::file_format`. -/
def DsvHandler.file_format (h : DsvHandler) : FileFormat :=
  if h.delimiter = 44 then .CSV
  else if h.delimiter = 9 then .TSV
  else .DSV

/-- Transcription of `DsvHandler::file_extension`. -/
def DsvHandler.file_extension (h : DsvHandler) : Option String :=
  match h.file_format with
  | .CSV => some "csv"
  | .DSV => some "dsv"
  | .TSV => some "tsv"

end Dsv

/-! ### Materializer of the old physical layer
(from `src/physical/tables/materialize.rs`) -/

namespace Materialize

inductive DataTypeName where
  | U64 | FloatTy | DoubleTy
deriving DecidableEq, Repr

/-- A data column builder of one of the three supported types
(`AdaptiveColumnBuilderT`). -/
inductive AdaptiveColumnBuilderT where
  | U64 (data : List Nat)
  | FloatTy (data : List Int)
  | DoubleTy (data : List Int)
deriving DecidableEq, Repr

/-- Builder setup of `materialize` (the match on `input_schema.get_type`):
every one of the three datatypes is accepted and given a fresh builder. -/
def setup_builder : DataTypeName → AdaptiveColumnBuilderT
  | .U64 => .U64 []
  | .FloatTy => .FloatTy []
  | .DoubleTy => .DoubleTy []

/-- Collection phase of `materialize` ("Collect data from column
builders"): each builder must be a `U64` builder, otherwise the source
panics ("Only covering u64 for now"), here the `none` case. -/
def collect_builders : List AdaptiveColumnBuilderT → Option (List (List Nat))
  | [] => some []
  | .U64 data :: rest => (collect_builders rest).map (data :: ·)
  | .FloatTy _ :: _ => none
  | .DoubleTy _ :: _ => none

/-- Type-level behaviour of `materialize`: set up one data column builder
per schema column, then collect them; the traversal in between only fills
the builders of the established types. -/
def materialize_types (input_schema : List DataTypeName) : Option (List (List Nat)) :=
  collect_builders (input_schema.map setup_builder)

end Materialize

/-! ### Concrete instances used by counterexamples and witnesses -/

/-- Two sorted, distinct rows with a storage-type inversion at the middle
layer: the first row's second value is an `Int64`, the second row's second
value an `Id32`. -/
def rowsPairing : List (List StorageValueT) :=
  [ [.id32 0, .int64 5, .id32 100],
    [.id32 1, .id32 7, .id32 200] ]

/-- Three sorted, distinct rows where the first parent has two children. -/
def rowsTriescan : List (List StorageValueT) :=
  [ [.id32 0, .id32 4], [.id32 0, .id32 5], [.id32 1, .id32 1] ]

/-- Sorted rows (the table of the `trie.rs` unit test) used as a witness
input for the matrix builder. -/
def rowsSortedMixed : List (List StorageValueT) :=
  [ [.id32 0, .int64 (-2), .float 12],
    [.id32 0, .int64 (-1), .id32 20],
    [.id32 0, .int64 (-1), .id32 32],
    [.int64 6, .id32 100, .id32 101],
    [.int64 6, .id32 100, .id32 102] ]

/-- The storage types strictly preceding `t` in the fixed order. -/
def typesBefore (t : StorageTypeName) : List StorageTypeName :=
  typeOrderList.takeWhile (fun u => u ≠ t)

/-- Sum of the data column lengths of the storage types strictly preceding
`t` in the fixed order. -/
def IntervalColumnT.precedingLen (col : IntervalColumnT) (t : StorageTypeName) : Nat :=
  ((typesBefore t).map (fun u => (col.dataOf u).length)).sum

/-- Concatenation, over the five storage types in their fixed order, of the
data values inside predecessor `p`'s interval of each type. -/
def IntervalColumnT.combinedInterval (col : IntervalColumnT) (p : Nat) :
    List StorageValueT :=
  typeOrderList.flatMap (fun t =>
    match col.interval_bounds t p with
    | none => []
    | some se => sliceD (col.dataOf t) se.1 se.2)

/-- A concrete trie scan state: positioned on the first `Id32` element of
the first layer of a trie. -/
def scanWitness : TrieScanGeneric where
  trie := Trie.from_tuple_buffer 3 rowsSortedMixed
  path_types := [.id32]
  column_scans :=
    [ ⟨fun t => if t = .id32 then (0, 1) else (0, 0),
        fun t => if t = .id32 then some 0 else none⟩,
      default, default ]

/-- A concrete dictionary with one stored and one marked value. -/
def dictWitness : Dict.DvDict Nat := ⟨[10], [20]⟩

/-- A one-rule program: `t(x) :- e(x)` with `e` as predicate `0` and `t` as
predicate `1`. -/
def ruleCopy : Chase.Rule where
  numAtoms := 1
  atomPred := fun _ => 0
  headPred := 1
  matchRel := fun choice => some (choice 0)

def edbOne : Nat → Set Chase.Tup :=
  fun p => if p = 0 then {[5]} else ∅

/-! ### Invariants of the matrix build (used to settle the trie invariants) -/

/-- The interval column builder of one storage type inside the matrix
builder. -/
def IntervalColumnTBuilderMatrix.builderOf (b : IntervalColumnTBuilderMatrix) :
    StorageTypeName → IntervalColumnBuilder
  | .id32 => b.builder_id32
  | .id64 => b.builder_id64
  | .int64 => b.builder_int64
  | .float => b.builder_float
  | .double => b.builder_double

def IntervalColumnTBuilderMatrix.bdata (b : IntervalColumnTBuilderMatrix)
    (t : StorageTypeName) : List StorageValueT :=
  (b.builderOf t).data

def IntervalColumnTBuilderMatrix.bends (b : IntervalColumnTBuilderMatrix)
    (t : StorageTypeName) : List Nat :=
  (b.builderOf t).interval

/-- End of the last closed interval of one storage type. -/
def IntervalColumnTBuilderMatrix.lastEnd (b : IntervalColumnTBuilderMatrix)
    (t : StorageTypeName) : Nat :=
  (b.bends t).getLastD 0

/-- Data of one storage type committed since the last closed interval. -/
def IntervalColumnTBuilderMatrix.openSlice (b : IntervalColumnTBuilderMatrix)
    (t : StorageTypeName) : List StorageValueT :=
  (b.bdata t).drop (b.lastEnd t)

/-- Invariant of the matrix builder maintained throughout one column build:
interval ends stay within the data; every closed interval, read across the
five storage types in their fixed order, is strictly sorted; and the data
committed since the last closed interval is the per-type partition of one
strictly sorted segment dominated by the cached value. -/
def MatrixInv (b : IntervalColumnTBuilderMatrix) : Prop :=
  (∀ t, ∀ e ∈ b.bends t, e ≤ (b.bdata t).length) ∧
  (∀ t t', (b.bends t).length = (b.bends t').length) ∧
  (∀ p, List.Chain' svLt (b.finalize.combinedInterval p)) ∧
  (∃ seg : List StorageValueT, List.Chain' svLt seg ∧
    (∀ t, b.openSlice t = seg.filter (fun v => v.vtype = t)) ∧
    (∀ x ∈ seg, ∀ cval, b.current_data_item = some cval → svLt x cval) ∧
    (b.current_data_item = none → seg = []))

/-- Boundary structure consumed by `matrixColumnLoop`, expressed against the
original rows: walking the rows from position `j` with `prev` as the row
before position `j`, whenever the length-`c` prefix changes, the head of the
remaining boundary list fires at exactly this position. -/
def CoverRun (c : Nat) : List Nat → Nat → Option (List StorageValueT) →
    List (List StorageValueT) → Prop
  | _, _, _, [] => True
  | bounds, j, prev, r :: rest =>
      (∀ p, prev = some p → r.take c ≠ p.take c → bounds.head? = some j) ∧
      CoverRun c (if bounds.head? = some j then bounds.tail else bounds) (j + 1)
        (some r) rest

/-- Membership form of the boundary coverage: every position (other than the
first) at which the length-`c` prefix of the row differs from the previous
row's is a member of `bounds`. -/
def CoversMem (bounds : List Nat) (c : Nat) (rows : List (List StorageValueT)) : Prop :=
  ∀ k, k + 1 < rows.length →
    (rows.getD (k + 1) []).take c ≠ (rows.getD k []).take c → (k + 1) ∈ bounds

/-- Chain of rows including the link from an optional preceding row. -/
def LinkChain (prev : Option (List StorageValueT))
    (rows : List (List StorageValueT)) : Prop :=
  List.Chain' rowLe (prev.toList ++ rows)

/-- The row before relative position `k` (the optional `prev` for `k = 0`). -/
def prevRowAt (prev : Option (List StorageValueT))
    (rows : List (List StorageValueT)) (k : Nat) : Option (List StorageValueT) :=
  if k = 0 then prev else some (rows.getD (k - 1) [])

/-- The guarantees claimed for one trie layer: every interval is a non-empty
sub-range of the data column of its storage type, and the data of one
predecessor, read across the storage types in their fixed order, is strictly
sorted. -/
def ColGood (col : IntervalColumnT) : Prop :=
  (∀ t p s e, col.interval_bounds t p = some (s, e) →
    s < e ∧ e ≤ (col.dataOf t).length) ∧
  (∀ p, List.Chain' svLt (col.combinedInterval p))

/-- Position `k` of `rows` (with `prev` standing before position `0`) is a
position at which the length-`(c+1)` prefix changes. -/
def changeAt (c : Nat) (prev : Option (List StorageValueT))
    (rows : List (List StorageValueT)) (k : Nat) : Prop :=
  ∃ p, prevRowAt prev rows k = some p ∧
    (rows.getD k []).take (c + 1) ≠ p.take (c + 1)

instance : IsTrans StorageValueT svLt where
  trans a b c hab hbc := by
    simp only [svLt, svLtb, decide_eq_true_eq] at hab hbc ⊢
    omega

/-- Kernel-reducible decidability of `List.Chain'` (the library instance is
stated via rewriting and does not evaluate inside `decide`). -/
instance (priority := 1100) decidableChainKer {α : Type} {R : α → α → Prop}
    [DecidableRel R] : (l : List α) → Decidable (List.Chain' R l)
  | [] => isTrue (by simp)
  | [_] => isTrue (by simp)
  | a :: b :: l =>
      haveI := decidableChainKer (R := R) (b :: l)
      decidable_of_iff (R a b ∧ List.Chain' R (b :: l)) List.chain'_cons.symm

/-! ## Theorems

First, validation of the embedding against the unit tests of
`intervalcolumn.rs` (the matrix-builder test data, including the
`column_starts` array and the `interval_bounds` assertions). -/

example :
    (matrixColumnLoop default [] 0
      [.id32 12, .id32 16, .id32 16, .int64 (-10), .int64 (-4)] []).1.finish_interval
      = (matrixColumnLoop default [] 0
      [.id32 12, .id32 16, .id32 16, .int64 (-10), .int64 (-4)] []).1.finish_interval := rfl

example :
    let b0 : IntervalColumnTBuilderMatrix := default
    let step := fun (b : IntervalColumnTBuilderMatrix) (v : StorageValueT) => (b.add_value v).2
    let b1 := ((((step b0 (.id32 12)) |>.add_value (.id32 16)).2.add_value
      (.id32 16)).2.add_value (.int64 (-10))).2
    let b2 := ((b1.add_value (.int64 (-4))).2).finish_interval
    let b3 := (((((b2.add_value (.int64 (-4))).2.add_value (.int64 (-4))).2.add_value
      (.int64 0)).2.add_value (.float 31)).2.add_value (.float 31)).2
    let col := b3.finish_interval.finalize
    col.dataOf .id32 = [.id32 12, .id32 16] ∧
    col.dataOf .int64 = [.int64 (-10), .int64 (-4), .int64 (-4), .int64 0] ∧
    col.dataOf .float = [.float 31] ∧
    col.column_starts = [2, 2, 6, 7, 7] ∧
    col.interval_bounds .id32 0 = some (0, 2) ∧
    col.interval_bounds .id64 0 = none ∧
    col.interval_bounds .int64 0 = some (0, 2) ∧
    col.interval_bounds .float 0 = none ∧
    col.interval_bounds .double 0 = none ∧
    col.interval_bounds .id32 1 = none ∧
    col.interval_bounds .id64 1 = none ∧
    col.interval_bounds .int64 1 = some (2, 4) ∧
    col.interval_bounds .float 1 = some (0, 1) ∧
    col.interval_bounds .double 1 = none := by decide

/-- C9: a TSV handler built by `try_new_tsv` without a delimiter attribute
succeeds with the comma byte `b','` (44) as its delimiter, so its
`file_format` is `CSV` and its `file_extension` is `"csv"` rather than
`"tsv"`. -/
theorem tsv_handler_gets_comma_delimiter :
    Dsv.DsvHandler.try_new_tsv none = .ok ⟨44⟩ ∧
    Dsv.DsvHandler.file_format ⟨44⟩ = .CSV ∧
    Dsv.DsvHandler.file_extension ⟨44⟩ = some "csv" := by
  refine ⟨rfl, rfl, rfl⟩

/-- C10: `materialize` sets up a builder for every column of any schema over
`{U64, Float, Double}`, but the collection phase succeeds exactly when every
column has datatype `U64`; any `Float` or `Double` column makes it panic. -/
theorem materialize_returns_iff_all_u64 (input_schema : List Materialize.DataTypeName) :
    (Materialize.materialize_types input_schema).isSome
      = input_schema.all (fun t => t == .U64) ∧
    (input_schema.map Materialize.setup_builder).length = input_schema.length := by
  refine ⟨?_, by simp⟩
  induction input_schema with
  | nil => rfl
  | cons t rest ih =>
      cases t <;>
        simp [Materialize.materialize_types, Materialize.collect_builders,
          Materialize.setup_builder, List.all_cons] at ih ⊢ <;>
        simp [ih]

/-- C4 (failing input): the sorted, duplicate-free buffer `rowsPairing`
contains the row `(Id32 0, Int64 5, Id32 100)`, but the trie materialized
from it by `Trie::from_tuple_buffer` does not contain that row when
enumerated by its scan; the interval lookups are associated with
predecessors in row order while `down` addresses them by type-major global
index, so the two parents' child intervals are swapped. -/
theorem from_tuple_buffer_roundtrip_failure :
    List.Chain' rowLe rowsPairing ∧
    rowsPairing.Nodup ∧
    [StorageValueT.id32 0, .int64 5, .id32 100] ∈ rowsPairing ∧
    [StorageValueT.id32 0, .int64 5, .id32 100] ∉
      trieEnum (Trie.from_tuple_buffer 3 rowsPairing) ∧
    trieEnum (Trie.from_tuple_buffer 3 rowsPairing) =
      [[.id32 0, .int64 5, .id32 200], [.id32 1, .id32 7, .id32 100]] := by
  decide

/-- C8 (failing input): for the lexicographically sorted, duplicate-free
scan stream `rowsTriescan` and `cut_layers = 0` (so the distinct prefixes
are the rows themselves), the trie built by `Trie::from_trie_scan` does not
contain the row `(Id32 0, Id32 5)`: the loop closes each interval only
after adding the first value of the next block and never closes the last
one, shifting every interval boundary. -/
theorem from_trie_scan_rows_failure :
    List.Chain' rowLe rowsTriescan ∧
    rowsTriescan.Nodup ∧
    rowsTriescan.map (fun r => r.take (2 - 0)) = rowsTriescan ∧
    [StorageValueT.id32 0, .id32 5] ∈ rowsTriescan ∧
    [StorageValueT.id32 0, .id32 5] ∉ trieEnum (Trie.from_trie_scan rowsTriescan 2 0) ∧
    trieEnum (Trie.from_trie_scan rowsTriescan 2 0) =
      [[.id32 0, .id32 4], [.id32 1, .id32 5], [.id32 1, .id32 1]] := by
  decide

/-- C3 (counterexample): a trie built by the triescan builder
(`Trie::from_trie_scan`, one of the trie's builders) violates the claimed
invariant: in layer 1, predecessor 1 owns the interval `[1, 3)` of the
`Id32` data column, whose values `[5, 1]` are not sorted ascending. -/
theorem triescan_built_interval_not_sorted :
    List.Chain' rowLe rowsTriescan ∧
    ((Trie.from_trie_scan rowsTriescan 2 0).columns.getD 1 default).interval_bounds
      .id32 1 = some (1, 3) ∧
    sliceD (((Trie.from_trie_scan rowsTriescan 2 0).columns.getD 1 default).dataOf .id32)
      1 3 = [.id32 5, .id32 1] ∧
    ¬ List.Chain' svLt
      (sliceD (((Trie.from_trie_scan rowsTriescan 2 0).columns.getD 1 default).dataOf .id32) 1 3) ∧
    ¬ List.Chain' svLt
      (((Trie.from_trie_scan rowsTriescan 2 0).columns.getD 1 default).combinedInterval 1) := by
  decide

/-- C6: the global index of a `(storage type, local index)` pair equals the
local index plus the sum of the data column lengths of all storage types
strictly preceding it in the fixed order, and on valid local indices the
mapping to global indices is injective. -/
theorem global_index_spec (c32 c64 ci cf cd : IntervalColumn) :
    (∀ t l, (IntervalColumnT.new c32 c64 ci cf cd).global_index t l =
      l + (IntervalColumnT.new c32 c64 ci cf cd).precedingLen t) ∧
    (∀ t1 l1 t2 l2,
      l1 < ((IntervalColumnT.new c32 c64 ci cf cd).dataOf t1).length →
      l2 < ((IntervalColumnT.new c32 c64 ci cf cd).dataOf t2).length →
      (IntervalColumnT.new c32 c64 ci cf cd).global_index t1 l1 =
        (IntervalColumnT.new c32 c64 ci cf cd).global_index t2 l2 →
      t1 = t2 ∧ l1 = l2) := by
  constructor
  · intro t l
    cases t <;>
      simp [IntervalColumnT.new, IntervalColumnT.global_index,
        IntervalColumnT.precedingLen, typesBefore, typeOrderList,
        IntervalColumnT.dataOf, IntervalColumnT.columnOf, IntervalColumn.len,
        List.takeWhile] <;> omega
  · intro t1 l1 t2 l2 h1 h2 heq
    cases t1 <;> cases t2 <;>
      simp [IntervalColumnT.new, IntervalColumnT.global_index,
        IntervalColumnT.dataOf, IntervalColumnT.columnOf, IntervalColumn.len]
        at h1 h2 heq ⊢ <;> omega

/-- Witness for the global-index theorem at a concrete layer. -/
theorem global_index_spec_witness :
    let col := IntervalColumnT.new ⟨[.id32 3], [1]⟩ ⟨[], [0]⟩ ⟨[.int64 7], [1]⟩ ⟨[], [0]⟩ ⟨[], [0]⟩
    0 < (col.dataOf .id32).length ∧ 0 < (col.dataOf .int64).length ∧
    (col.global_index .int64 0 = 0 + col.precedingLen .int64) ∧
    (col.global_index .id32 0 = col.global_index .int64 0 → False) := by
  intro col
  refine ⟨by decide, by decide, (global_index_spec _ _ _ _ _).1 .int64 0, ?_⟩
  intro h
  rcases (global_index_spec _ _ _ _ _).2 .id32 0 .int64 0 (by decide) (by decide) h
    with ⟨ht, -⟩
  exact absurd ht (by decide)

/-- C7: the plan built by `node_negation` denotes exactly the rows of the
main node that avoid every negated atom's subtrahend, where each subtrahend
unions that atom's subtables over the steps `[0, current_step)` and is
filtered by all the per-atom constraints before the subtraction. -/
theorem sem_fetchTable (tables : Nat → Nat → Set Chase.Tup)
    (sat : Nat → Chase.Tup → Prop) (pred step : Nat) :
    Plan.sem tables sat (.fetchTable pred step) = tables pred step := by
  rw [Plan.sem]

theorem sem_union (tables : Nat → Nat → Set Chase.Tup)
    (sat : Nat → Chase.Tup → Prop) (subnodes : List Plan.ExecutionNode) :
    Plan.sem tables sat (.union subnodes) =
      { t | ∃ n ∈ subnodes, t ∈ Plan.sem tables sat n } := by
  rw [Plan.sem]; ext t; simp [Subtype.exists]

theorem sem_filterBy (tables : Nat → Nat → Set Chase.Tup)
    (sat : Nat → Chase.Tup → Prop) (constraints : List Nat)
    (subnode : Plan.ExecutionNode) :
    Plan.sem tables sat (.filterBy constraints subnode) =
      { t | t ∈ Plan.sem tables sat subnode ∧ ∀ c ∈ constraints, sat c t } := by
  rw [Plan.sem]

theorem sem_subtract (tables : Nat → Nat → Set Chase.Tup)
    (sat : Nat → Chase.Tup → Prop) (main : Plan.ExecutionNode)
    (subtracted : List Plan.ExecutionNode) :
    Plan.sem tables sat (.subtract main subtracted) =
      { t | t ∈ Plan.sem tables sat main ∧
        ∀ n ∈ subtracted, t ∉ Plan.sem tables sat n } := by
  rw [Plan.sem]; ext t; simp [Subtype.forall]

/-- C7: the plan built by `node_negation` denotes exactly the rows of the
main node that avoid all subtrahends of the negated atoms, where each
subtrahend unions the subtables of its atom over the steps
`[0, current_step)` and is
filtered by all the per-atom constraints before the subtraction. -/
theorem node_negation_sem (tables : Nat → Nat → Set Chase.Tup)
    (sat : Nat → Chase.Tup → Prop) (node_main : Plan.ExecutionNode)
    (current_step_number : Nat) (subtracted_atoms : List Plan.VariableAtom)
    (subtracted_filters : List Nat) :
    Plan.sem tables sat
      (Plan.node_negation node_main current_step_number subtracted_atoms
        subtracted_filters) =
      { t | t ∈ Plan.sem tables sat node_main ∧
        ∀ a ∈ subtracted_atoms,
          ¬ ((∃ step < current_step_number, t ∈ tables a.predicate step) ∧
            ∀ c ∈ subtracted_filters, sat c t) } := by
  unfold Plan.node_negation
  rw [sem_subtract]
  ext t
  simp only [Set.mem_setOf_eq, List.mem_map, forall_exists_index, and_imp]
  constructor
  · rintro ⟨hmain, hsubs⟩
    refine ⟨hmain, ?_⟩
    intro a ha ⟨⟨step, hstep, ht⟩, hcs⟩
    refine hsubs _ a ha rfl ?_
    rw [Plan.node_filter, sem_filterBy]
    refine ⟨?_, hcs⟩
    rw [Plan.subplan_union, sem_union]
    exact ⟨.fetchTable a.predicate step,
      List.mem_map.mpr ⟨step, List.mem_range.mpr hstep, rfl⟩,
      by rw [sem_fetchTable]; exact ht⟩
  · rintro ⟨hmain, hsubs⟩
    refine ⟨hmain, ?_⟩
    rintro n a ha rfl hmem
    rw [Plan.node_filter, sem_filterBy] at hmem
    obtain ⟨hunion, hcs⟩ := hmem
    rw [Plan.subplan_union, sem_union] at hunion
    obtain ⟨m, hm, htm⟩ := hunion
    obtain ⟨step, hstep, rfl⟩ := List.mem_map.mp hm
    rw [sem_fetchTable] at htm
    exact hsubs a ha ⟨⟨step, List.mem_range.mp hstep, htm⟩, hcs⟩

theorem getD_set_self {α : Type} : ∀ (l : List α) (i : Nat) (x d : α),
    i < l.length → (l.set i x).getD i d = x
  | _ :: _, 0, _, _, _ => rfl
  | _ :: l, i + 1, x, d, h => getD_set_self l i x d (by simpa using h)
  | [], _, _, _, h => absurd h (by simp)

/-- C5: on a `TrieScanGeneric`, `up` in the starting position violates the
contract; below the root, `down` with the current scan not positioned on an
element violates the contract; and a legal `down` below the root narrows the
next layer's scan of the requested storage type exactly to the interval
obtained from the next layer's interval lookup at the current element's
global index (the empty range when the predecessor has no children of that
type). -/
theorem triescan_down_up_contract (s : TrieScanGeneric)
    (current_type next_type : StorageTypeName) (local_index : Nat)
    (hlast : s.path_types.getLast? = some current_type)
    (hlen : s.path_types.length < s.column_scans.length)
    (hpos : (s.column_scans.getD (s.path_types.length - 1) default).posn
      current_type = some local_index) :
    (∀ s0 : TrieScanGeneric, s0.path_types = [] → s0.up = none) ∧
    (∀ (s0 : TrieScanGeneric) (ct t : StorageTypeName),
      s0.path_types.getLast? = some ct →
      (s0.column_scans.getD (s0.path_types.length - 1) default).posn ct = none →
      s0.down t = none) ∧
    (∃ s', s.down next_type = some s' ∧
      s'.path_types = s.path_types ++ [next_type] ∧
      (s'.column_scans.getD s.path_types.length default).ranges next_type =
        ((s.trie.columns.getD s.path_types.length default).interval_bounds next_type
          ((s.trie.columns.getD (s.path_types.length - 1) default).global_index
            current_type local_index)).getD (0, 0) ∧
      (s'.column_scans.getD s.path_types.length default).posn next_type = none) := by
  refine ⟨?_, ?_, ?_⟩
  · intro s0 h0
    simp [TrieScanGeneric.up, h0]
  · intro s0 ct t hct hnone
    unfold TrieScanGeneric.down
    split
    · rw [hct]
      dsimp only
      rw [hnone]
    · rfl
  · unfold TrieScanGeneric.down
    rw [if_pos hlen, hlast]
    dsimp only
    rw [hpos]
    refine ⟨_, rfl, rfl, ?_, ?_⟩
    · rw [getD_set_self _ _ _ _ hlen]
      simp [ColumnScanRainbow.narrow]
    · rw [getD_set_self _ _ _ _ hlen]
      simp [ColumnScanRainbow.narrow]

/-- Witness for the trie scan contract theorem: a concrete scan positioned
on the first `Id32` element of the first layer, moved down into the `Int64`
part of the second layer. -/
theorem triescan_down_up_contract_witness :
    (scanWitness.path_types.getLast? = some .id32 ∧
      scanWitness.path_types.length < scanWitness.column_scans.length ∧
      (scanWitness.column_scans.getD (scanWitness.path_types.length - 1)
        default).posn .id32 = some 0) ∧
    (∃ s', scanWitness.down .int64 = some s' ∧
      s'.path_types = scanWitness.path_types ++ [.int64] ∧
      (s'.column_scans.getD scanWitness.path_types.length default).ranges .int64 =
        ((scanWitness.trie.columns.getD scanWitness.path_types.length
          default).interval_bounds .int64
          ((scanWitness.trie.columns.getD (scanWitness.path_types.length - 1)
            default).global_index .id32 0)).getD (0, 0) ∧
      (s'.column_scans.getD scanWitness.path_types.length default).posn .int64
        = none) :=
  ⟨⟨by decide, by decide, by decide⟩,
    (triescan_down_up_contract scanWitness .id32 .int64 0 (by decide) (by decide)
      (by decide)).2.2⟩

namespace Dict

variable {α : Type} [DecidableEq α]

theorem firstIdx_append {v : α} :
    ∀ {l : List α} {i : Nat}, firstIdx v l = some i →
      ∀ l' : List α, firstIdx v (l ++ l') = some i := by
  intro l
  induction l with
  | nil => intro i h; simp [firstIdx] at h
  | cons x xs ih =>
      intro i h l'
      by_cases hx : x = v
      · simpa [firstIdx, hx] using h
      · simp only [firstIdx, if_neg hx] at h
        obtain ⟨j, hj, rfl⟩ := Option.map_eq_some'.mp h
        show (if x = v then some 0 else (firstIdx v (xs ++ l')).map (· + 1))
          = some (j + 1)
        rw [if_neg hx, ih hj l']
        rfl

theorem firstIdx_none_of_not_mem {v : α} :
    ∀ {l : List α}, v ∉ l → firstIdx v l = none := by
  intro l
  induction l with
  | nil => intro; rfl
  | cons x xs ih =>
      intro h
      have hx : ¬ x = v := fun hc => h (hc ▸ List.mem_cons_self x xs)
      have hm : v ∉ xs := fun hc => h (List.mem_cons_of_mem _ hc)
      simp [firstIdx, if_neg hx, ih hm]

theorem firstIdx_append_self {v : α} :
    ∀ {l : List α}, firstIdx v l = none →
      firstIdx v (l ++ [v]) = some l.length := by
  intro l
  induction l with
  | nil => intro; simp [firstIdx]
  | cons x xs ih =>
      intro h
      by_cases hx : x = v
      · simp [firstIdx, hx] at h
      · simp only [firstIdx, if_neg hx, Option.map_eq_none'] at h
        simp [firstIdx, if_neg hx, ih h]

theorem firstIdx_get? {v : α} :
    ∀ {l : List α} {i : Nat}, firstIdx v l = some i → l.get? i = some v := by
  intro l
  induction l with
  | nil => intro i h; simp [firstIdx] at h
  | cons x xs ih =>
      intro i h
      by_cases hx : x = v
      · simp [firstIdx, hx] at h
        simp [← h, hx]
      · simp only [firstIdx, if_neg hx] at h
        obtain ⟨j, hj, rfl⟩ := Option.map_eq_some'.mp h
        simpa using ih hj

theorem firstIdx_of_get? {v : α} :
    ∀ {l : List α} {i : Nat}, l.Nodup → l.get? i = some v →
      firstIdx v l = some i := by
  intro l
  induction l with
  | nil => intro i _ h; simp at h
  | cons x xs ih =>
      intro i hnd h
      match i with
      | 0 =>
          rw [List.get?_cons_zero] at h
          simp [firstIdx, Option.some.inj h]
      | i + 1 =>
          rw [List.get?_cons_succ] at h
          have hvx : ¬ x = v := by
            intro hc
            exact (List.nodup_cons.mp hnd).1 (by rw [hc]; exact List.get?_mem h)
          simp [firstIdx, if_neg hvx, ih (List.nodup_cons.mp hnd).2 h]

/-- Stability of stored ids: every subsequent dictionary state keeps the id
of an already stored value. -/
theorem firstIdx_mono {d d' : DvDict α} (h : Reaches d d') {v : α} {i : Nat}
    (hs : firstIdx v d.stored = some i) : firstIdx v d'.stored = some i := by
  induction h with
  | refl => exact hs
  | add e' w _ ih =>
      show firstIdx v (add_datavalue e' w).2.stored = some i
      unfold add_datavalue
      split
      · exact ih
      · split
        · exact ih
        · exact firstIdx_append ih [w]
  | mark e' w _ ih =>
      show firstIdx v (mark_dv e' w).2.stored = some i
      unfold mark_dv
      split
      · exact ih
      · split
        · exact ih
        · exact ih

end Dict

/-- C2: the dictionary contract.  If `add_datavalue` returned `Fresh(id)`,
then in every subsequent state `datavalue_to_id` returns `Some(id)` and
`id_to_datavalue id` returns the value; for every id other than
`KNOWN_ID_MARK` whose `id_to_datavalue` is `Some(v)`, `datavalue_to_id v`
returns that id; values that were only marked get the id `KNOWN_ID_MARK`
(which equals `usize::MAX - 1`), and `id_to_datavalue KNOWN_ID_MARK` is
`None`. -/
theorem dvdict_contract {α : Type} [DecidableEq α] (d : Dict.DvDict α)
    (hwf : Dict.WF d) :
    KNOWN_ID_MARK = 2 ^ 64 - 2 ∧
    (∀ (v : α) (id : Nat) (d₂ d' : Dict.DvDict α),
      Dict.add_datavalue d v = (.fresh id, d₂) → Dict.Reaches d₂ d' →
      Dict.datavalue_to_id d' v = some id ∧ Dict.id_to_datavalue d' id = some v) ∧
    (∀ (id : Nat) (v : α), id ≠ KNOWN_ID_MARK →
      Dict.id_to_datavalue d id = some v →
      Dict.datavalue_to_id d v = some id) ∧
    (∀ v ∈ d.marked, (Dict.add_datavalue d v).1 = .known KNOWN_ID_MARK ∧
      Dict.datavalue_to_id d v = some KNOWN_ID_MARK) ∧
    (Dict.dictLen d ≤ KNOWN_ID_MARK →
      Dict.id_to_datavalue d KNOWN_ID_MARK = none) := by
  refine ⟨by unfold KNOWN_ID_MARK NONEXISTING_ID_MARK; omega, ?_, ?_, ?_, ?_⟩
  · intro v id d₂ d' heq hr
    unfold Dict.add_datavalue at heq
    split at heq
    · simp at heq
    · split at heq
      · simp at heq
      · next hnone =>
          simp only [Prod.mk.injEq, Dict.AddResult.fresh.injEq] at heq
          obtain ⟨rfl, rfl⟩ := heq
          have hsome : Dict.firstIdx v (d.stored ++ [v]) = some d.stored.length :=
            Dict.firstIdx_append_self hnone
          have hd' := Dict.firstIdx_mono hr hsome
          constructor
          · unfold Dict.datavalue_to_id
            rw [hd']
          · unfold Dict.id_to_datavalue
            exact Dict.firstIdx_get? hd'
  · intro id v _ hrev
    unfold Dict.id_to_datavalue at hrev
    unfold Dict.datavalue_to_id
    rw [Dict.firstIdx_of_get? hwf.1 hrev]
  · intro v hv
    have hnotstored : v ∉ d.stored := (hwf.2 v hv)
    have hnone := Dict.firstIdx_none_of_not_mem hnotstored
    constructor
    · unfold Dict.add_datavalue
      rw [if_pos hv]
    · unfold Dict.datavalue_to_id
      rw [hnone, if_pos hv]
  · intro hlen
    unfold Dict.id_to_datavalue
    exact List.get?_eq_none.mpr (by exact hlen)

/-- Witness for the dictionary contract at a concrete dictionary with one
stored and one marked value. -/
theorem dvdict_contract_witness :
    Dict.WF dictWitness ∧
    ((Dict.add_datavalue dictWitness 20).1 = .known KNOWN_ID_MARK ∧
      Dict.datavalue_to_id dictWitness 20 = some KNOWN_ID_MARK) :=
  ⟨⟨by decide, by decide⟩,
    (dvdict_contract dictWitness ⟨by decide, by decide⟩).2.2.2.1 20 (by decide)⟩

namespace Chase

theorem ruleEval_mono (r : Rule) {D E : Nat → Set Tup} (h : ∀ p, D p ⊆ E p) :
    RuleEval r D ⊆ RuleEval r E := by
  rintro x ⟨choice, hc, hm⟩
  exact ⟨choice, fun i => h _ (hc i), hm⟩

theorem ruleEval_congr (r : Rule) {D E : Nat → Set Tup} (h : ∀ p, D p = E p) :
    RuleEval r D = RuleEval r E :=
  subset_antisymm (ruleEval_mono r fun p => (h p).le)
    (ruleEval_mono r fun p => (h p).ge)

theorem delta_subset_eval (r : Rule) {Df Dn : Nat → Set Tup}
    (h : ∀ p, Dn p ⊆ Df p) : RuleEvalDelta r Df Dn ⊆ RuleEval r Df := by
  rintro x ⟨i, choice, hi, hj, hm⟩
  refine ⟨choice, ?_, hm⟩
  intro j
  by_cases hji : j = i
  · subst hji; exact h _ hi
  · exact hj j hji

theorem eval_subset_delta_self (r : Rule) (h : 0 < r.numAtoms)
    (D : Nat → Set Tup) : RuleEval r D ⊆ RuleEvalDelta r D D := by
  rintro x ⟨choice, hc, hm⟩
  exact ⟨⟨0, h⟩, choice, hc _, fun j _ => hc j, hm⟩

theorem eval_split (r : Rule) {Ds Db Dn : Nat → Set Tup}
    (hcover : ∀ p, Db p ⊆ Ds p ∪ Dn p) :
    RuleEval r Db ⊆ RuleEval r Ds ∪ RuleEvalDelta r Db Dn := by
  rintro x ⟨choice, hc, hm⟩
  by_cases hall : ∀ i, choice i ∈ Ds (r.atomPred i)
  · exact Or.inl ⟨choice, hall, hm⟩
  · push_neg at hall
    obtain ⟨i, hi⟩ := hall
    rcases hcover _ (hc i) with hds | hdn
    · exact absurd hds hi
    · exact Or.inr ⟨i, choice, hdn, fun j _ => hc j, hm⟩

theorem delta_subset_cum (P : Program) (edb : Nat → Set Tup) :
    ∀ k p, (semiState P edb k).2 p ⊆ (semiState P edb k).1 p
  | 0, _ => subset_rfl
  | k + 1, p => Set.subset_union_right

/-- The semi-naive state agrees with naive evaluation, and every rule is
closed under one more evaluation against the current cumulative database. -/
theorem semiInv (P : Program) (edb : Nat → Set Tup)
    (hpos : ∀ r ∈ P, 0 < r.numAtoms) (k : Nat) :
    (∀ p, (semiState P edb k).1 p = naiveDB P edb k p) ∧
    (∀ r ∈ P, RuleEval r (semiState P edb k).1 ⊆
      (semiState P edb (k + 1)).1 r.headPred) := by
  induction k with
  | zero =>
      refine ⟨fun p => rfl, ?_⟩
      intro r hr x hx
      exact Or.inr ⟨r, hr, rfl, eval_subset_delta_self r (hpos r hr) edb hx⟩
  | succ k ih =>
      obtain ⟨ihEq, ihClose⟩ := ih
      have hfst : ∀ p, (semiState P edb (k + 1)).1 p = naiveDB P edb (k + 1) p := by
        intro p
        apply subset_antisymm
        · intro x hx
          rcases hx with hx | hx
          · exact Or.inl ((ihEq p) ▸ hx)
          · obtain ⟨r, hr, hhead, hmem⟩ := hx
            have h1 : x ∈ RuleEval r (semiState P edb k).1 :=
              delta_subset_eval r (delta_subset_cum P edb k) hmem
            have h2 : x ∈ RuleEval r (naiveDB P edb k) :=
              (ruleEval_congr r ihEq) ▸ h1
            exact Or.inr ⟨r, hr, hhead, h2⟩
        · intro x hx
          rcases hx with hx | hx
          · exact Or.inl ((ihEq p).symm ▸ hx)
          · obtain ⟨r, hr, hhead, hmem⟩ := hx
            have h1 : x ∈ RuleEval r (semiState P edb k).1 :=
              (ruleEval_congr r ihEq).symm ▸ hmem
            exact hhead ▸ ihClose r hr h1
      refine ⟨hfst, ?_⟩
      intro r hr x hx
      have hsplit := (@eval_split r ((semiState P edb k).1) _
        ((semiState P edb (k + 1)).2) (fun p => subset_rfl)) hx
      rcases hsplit with h1 | h2
      · exact Set.subset_union_left (ihClose r hr h1)
      · exact Or.inr ⟨r, hr, rfl, h2⟩

end Chase

/-- C1: for every rule program whose rules each have at least one positive
body atom, semi-naive materialization (each atom in turn restricted to the
delta of the previous round, all other atoms reading the full database)
yields, for every predicate and after every number of rounds, exactly the
same set of rows as naive evaluation that recomputes all matches at every
step. -/
theorem seminaive_eq_naive (P : Chase.Program) (edb : Nat → Set Chase.Tup)
    (hpos : ∀ r ∈ P, 0 < r.numAtoms) (k p : Nat) :
    Chase.semiDB P edb k p = Chase.naiveDB P edb k p :=
  (Chase.semiInv P edb hpos k).1 p

/-- Witness for the semi-naive equivalence on a concrete one-rule program. -/
theorem seminaive_eq_naive_witness :
    (∀ r ∈ [ruleCopy], 0 < r.numAtoms) ∧
    Chase.semiDB [ruleCopy] edbOne 2 1 = Chase.naiveDB [ruleCopy] edbOne 2 1 := by
  have hyp : ∀ r ∈ [ruleCopy], 0 < r.numAtoms := by
    intro r hr
    rw [List.mem_singleton] at hr
    subst hr
    exact Nat.one_pos
  exact ⟨hyp, seminaive_eq_naive _ _ hyp 2 1⟩

/-! ### Order lemmas for storage values and rows -/

theorem svLt_iff (a b : StorageValueT) :
    svLt a b ↔ (a.vtype.rank < b.vtype.rank ∨
      (a.vtype.rank = b.vtype.rank ∧ a.payload < b.payload)) := by
  simp [svLt, svLtb]

theorem svLt_trans {a b c : StorageValueT} (hab : svLt a b) (hbc : svLt b c) :
    svLt a c := Trans.trans hab hbc

theorem svLe_iff (a b : StorageValueT) : svLe a b ↔ (svLt a b ∨ a = b) := by
  simp [svLe, svLeb, svLt, beq_iff_eq]

theorem svLe_refl (a : StorageValueT) : svLe a a := (svLe_iff a a).mpr (Or.inr rfl)

theorem svLt_of_svLe_ne {a b : StorageValueT} (h : svLe a b) (hne : a ≠ b) :
    svLt a b := ((svLe_iff a b).mp h).resolve_right hne

theorem svLt_rank_le {a b : StorageValueT} (h : svLt a b) :
    a.vtype.rank ≤ b.vtype.rank := by
  rcases (svLt_iff a b).mp h with h | ⟨h, -⟩ <;> omega

theorem rank_injective {t u : StorageTypeName} (h : t.rank = u.rank) : t = u := by
  cases t <;> cases u <;> first | rfl | (exfalso; simp [StorageTypeName.rank] at h)

/-- Lexicographically ordered rows with equal length-`c` prefixes have
ordered entries at position `c`. -/
theorem rowLe_getD : ∀ (c : Nat) (p r : List StorageValueT), rowLe p r →
    p.take c = r.take c → c < p.length → c < r.length →
    svLe (p.getD c default) (r.getD c default) := by
  intro c
  induction c with
  | zero =>
      intro p r hle _ hp hr
      match p, r with
      | a :: as, b :: bs =>
          rcases hle with hlt | heq
          · simp only [rowLtb] at hlt
            split at hlt
            · next heq2 =>
                rw [List.getD_cons_zero, List.getD_cons_zero, heq2]
                exact svLe_refl b
            · rw [List.getD_cons_zero, List.getD_cons_zero]
              exact (svLe_iff a b).mpr (Or.inl hlt)
          · cases heq
            exact svLe_refl _
  | succ c ih =>
      intro p r hle htake hp hr
      match p, r with
      | a :: as, b :: bs =>
          simp only [List.take_succ_cons, List.cons.injEq] at htake
          obtain ⟨rfl, htk⟩ := htake
          rw [List.getD_cons_succ, List.getD_cons_succ]
          have hle' : rowLe as bs := by
            rcases hle with hlt | heq
            · simp only [rowLtb, if_pos rfl] at hlt
              exact Or.inl hlt
            · cases heq
              exact Or.inr rfl
          exact ih as bs hle' htk (by simpa using hp) (by simpa using hr)

/-- Rows with equal length-`c` prefixes but different length-`(c+1)`
prefixes differ at position `c`. -/
theorem getD_ne_of_take_succ_ne {p r : List StorageValueT} {c : Nat}
    (hp : c < p.length) (hr : c < r.length) (htk : p.take c = r.take c)
    (hne : p.take (c + 1) ≠ r.take (c + 1)) :
    p.getD c default ≠ r.getD c default := by
  intro hc
  apply hne
  have h1 : p.get? c = some (p.getD c default) := by
    rw [List.getD_eq_getD_get?]
    cases hq : p.get? c
    · exact absurd (List.get?_eq_none.mp hq) (by omega)
    · rfl
  have h2 : r.get? c = some (r.getD c default) := by
    rw [List.getD_eq_getD_get?]
    cases hq : r.get? c
    · exact absurd (List.get?_eq_none.mp hq) (by omega)
    · rfl
  rw [List.take_succ, List.take_succ, htk, ← List.get?_eq_getElem?,
    ← List.get?_eq_getElem?, h1, h2, hc]

theorem sliceD_append {l l' : List StorageValueT} {s e : Nat}
    (he : e ≤ l.length) : sliceD (l ++ l') s e = sliceD l s e := by
  unfold sliceD
  by_cases hse : e ≤ s
  · have : e - s = 0 := by omega
    rw [this]
    simp
  · have hs : s ≤ l.length := by omega
    rw [List.drop_append_of_le_length hs]
    have : e - s ≤ (l.drop s).length := by
      rw [List.length_drop]
      omega
    rw [List.take_append_of_le_length this]

/-! ### List helpers for the matrix-build invariant -/

theorem getLastD_mem {α : Type} : ∀ (l : List α) (d : α), l ≠ [] → l.getLastD d ∈ l
  | [x], _, _ => by simp [List.getLastD]
  | x :: y :: l, d, _ => by
      rw [List.getLastD_cons]
      exact List.mem_cons_of_mem x (getLastD_mem (y :: l) x (by simp))

theorem getLastD_indep {α : Type} : ∀ (l : List α) (d d' : α), l ≠ [] →
    l.getLastD d = l.getLastD d'
  | [_], _, _, _ => rfl
  | _ :: _ :: _, _, _, _ => rfl

theorem getD_last {α : Type} : ∀ (l : List α) (d : α),
    l.getD (l.length - 1) d = l.getLastD d
  | [], _ => rfl
  | [x], _ => rfl
  | x :: y :: l, d => by
      have h1 : (x :: y :: l).length - 1 = (y :: l).length - 1 + 1 := by
        simp
      rw [h1, List.getD_cons_succ, List.getLastD_cons, getD_last (y :: l) d,
        getLastD_indep (y :: l) d x (by simp)]

theorem getLastD_concat {α : Type} : ∀ (l : List α) (x d : α),
    (l ++ [x]).getLastD d = x
  | [], _, _ => rfl
  | y :: l, x, d => by
      rw [List.cons_append, List.getLastD_cons, getLastD_concat l x y]

theorem getD_append_left {α : Type} (l l' : List α) (n : Nat) (d : α)
    (h : n < l.length) : (l ++ l').getD n d = l.getD n d := by
  rw [List.getD_eq_getD_get?, List.getD_eq_getD_get?, List.get?_append h]

/-- Interval bounds only read the interval lookup, not the data. -/
theorem interval_bounds_data_free (d1 d2 : List StorageValueT) (ends : List Nat)
    (p : Nat) :
    IntervalColumn.interval_bounds ⟨d1, ends⟩ p =
      IntervalColumn.interval_bounds ⟨d2, ends⟩ p := rfl

theorem intervalStart_data_free (d1 d2 : List StorageValueT) (ends : List Nat)
    (p : Nat) :
    IntervalColumn.intervalStart ⟨d1, ends⟩ p =
      IntervalColumn.intervalStart ⟨d2, ends⟩ p := rfl

theorem intervalStart_concat (d d' : List StorageValueT) (ends : List Nat)
    (x p : Nat) (hp : p ≤ ends.length) :
    IntervalColumn.intervalStart ⟨d, ends ++ [x]⟩ p =
      IntervalColumn.intervalStart ⟨d', ends⟩ p := by
  unfold IntervalColumn.intervalStart
  by_cases h0 : p = 0
  · simp [h0]
  · simp only [if_neg h0]
    exact getD_append_left _ _ _ _ (by omega)

theorem intervalStart_last (d : List StorageValueT) (ends : List Nat) :
    IntervalColumn.intervalStart ⟨d, ends⟩ ends.length = ends.getLastD 0 := by
  unfold IntervalColumn.intervalStart
  by_cases h0 : ends.length = 0
  · have hnil : ends = [] := List.length_eq_zero.mp h0
    simp [hnil, List.getLastD]
  · rw [if_neg h0, getD_last]

theorem interval_bounds_concat (ends : List Nat) (x : Nat)
    (d : List StorageValueT) (p : Nat) (hp : p < ends.length) :
    IntervalColumn.interval_bounds ⟨d, ends ++ [x]⟩ p =
      IntervalColumn.interval_bounds ⟨d, ends⟩ p := by
  unfold IntervalColumn.interval_bounds
  rw [List.get?_append hp]
  cases h : ends.get? p with
  | none => rfl
  | some e =>
      rw [intervalStart_concat d d ends x p (le_of_lt hp)]

theorem interval_bounds_concat_last (ends : List Nat) (x : Nat)
    (d : List StorageValueT) :
    IntervalColumn.interval_bounds ⟨d, ends ++ [x]⟩ ends.length =
      if ends.getLastD 0 < x then some (ends.getLastD 0, x) else none := by
  unfold IntervalColumn.interval_bounds
  rw [List.get?_concat_length]
  rw [intervalStart_concat d d ends x _ (le_refl _), intervalStart_last]

theorem interval_bounds_past (ends : List Nat) (d : List StorageValueT)
    (p : Nat) (hp : ends.length ≤ p) :
    IntervalColumn.interval_bounds ⟨d, ends⟩ p = none := by
  unfold IntervalColumn.interval_bounds
  rw [List.get?_eq_none.mpr hp]

theorem sliceD_full (l : List StorageValueT) (s : Nat) :
    sliceD l s l.length = l.drop s := by
  unfold sliceD
  have : l.length - s ≥ (l.drop s).length := by simp
  exact List.take_of_length_le this

/-! ### Accessors of the matrix builder -/

namespace IntervalColumnTBuilderMatrix

theorem builderOf_route_self (b : IntervalColumnTBuilderMatrix)
    (v : StorageValueT) :
    (b.route v).builderOf v.vtype = (b.builderOf v.vtype).add_data v := by
  cases v <;> rfl

theorem builderOf_route_other (b : IntervalColumnTBuilderMatrix)
    (v : StorageValueT) {t : StorageTypeName} (h : t ≠ v.vtype) :
    (b.route v).builderOf t = b.builderOf t := by
  cases v <;> cases t <;> first | rfl | exact absurd rfl h

theorem route_cache (b : IntervalColumnTBuilderMatrix) (v : StorageValueT) :
    (b.route v).current_data_item = b.current_data_item := by
  cases v <;> rfl

theorem bends_route (b : IntervalColumnTBuilderMatrix) (v : StorageValueT)
    (t : StorageTypeName) : (b.route v).bends t = b.bends t := by
  unfold bends
  by_cases h : t = v.vtype
  · subst h
    rw [builderOf_route_self]
    rfl
  · rw [builderOf_route_other b v h]

theorem bdata_route_self (b : IntervalColumnTBuilderMatrix) (v : StorageValueT) :
    (b.route v).bdata v.vtype = b.bdata v.vtype ++ [v] := by
  unfold bdata
  rw [builderOf_route_self]
  rfl

theorem bdata_route_other (b : IntervalColumnTBuilderMatrix) (v : StorageValueT)
    {t : StorageTypeName} (h : t ≠ v.vtype) :
    (b.route v).bdata t = b.bdata t := by
  unfold bdata
  rw [builderOf_route_other b v h]

theorem commit_value_none (b : IntervalColumnTBuilderMatrix)
    (h : b.current_data_item = none) : b.commit_value = b := by
  unfold commit_value
  rw [h]

theorem commit_value_some (b : IntervalColumnTBuilderMatrix) (c : StorageValueT)
    (h : b.current_data_item = some c) : b.commit_value = b.route c := by
  unfold commit_value
  rw [h]

theorem builderOf_finish (b : IntervalColumnTBuilderMatrix) (t : StorageTypeName) :
    b.finish_interval.builderOf t =
      (b.commit_value.builderOf t).finish_interval := by
  cases t <;> rfl

theorem finish_cache (b : IntervalColumnTBuilderMatrix) :
    b.finish_interval.current_data_item = none := rfl

theorem bends_finish (b : IntervalColumnTBuilderMatrix) (t : StorageTypeName) :
    b.finish_interval.bends t =
      b.commit_value.bends t ++ [(b.commit_value.bdata t).length] := by
  unfold bends
  rw [builderOf_finish]
  rfl

theorem bdata_finish (b : IntervalColumnTBuilderMatrix) (t : StorageTypeName) :
    b.finish_interval.bdata t = b.commit_value.bdata t := by
  unfold bdata
  rw [builderOf_finish]
  rfl

theorem columnOf_finalize (b : IntervalColumnTBuilderMatrix) (t : StorageTypeName) :
    b.finalize.columnOf t = ⟨b.bdata t, b.bends t⟩ := by
  cases t <;> rfl

theorem dataOf_finalize (b : IntervalColumnTBuilderMatrix) (t : StorageTypeName) :
    b.finalize.dataOf t = b.bdata t := by
  cases t <;> rfl

theorem add_value_none (b : IntervalColumnTBuilderMatrix) (v : StorageValueT)
    (h : b.current_data_item = none) :
    b.add_value v = (true, { b with current_data_item := some v }) := by
  unfold add_value
  rw [h]

theorem add_value_same (b : IntervalColumnTBuilderMatrix) (v : StorageValueT)
    (h : b.current_data_item = some v) : b.add_value v = (false, b) := by
  unfold add_value
  rw [h]
  simp

theorem add_value_diff (b : IntervalColumnTBuilderMatrix) (v c : StorageValueT)
    (h : b.current_data_item = some c) (hne : c ≠ v) :
    b.add_value v =
      (true, { b.commit_value with current_data_item := some v }) := by
  unfold add_value
  rw [h]
  simp [if_neg hne]

theorem add_value_cache (b : IntervalColumnTBuilderMatrix) (v : StorageValueT) :
    (b.add_value v).2.current_data_item = some v := by
  cases h : b.current_data_item with
  | none => rw [add_value_none b v h]
  | some c =>
      by_cases hv : c = v
      · rw [hv] at h
        rw [add_value_same b v h]
        exact h
      · rw [add_value_diff b v c h hv]

theorem lastEnd_le (b : IntervalColumnTBuilderMatrix) (t : StorageTypeName)
    (hend : ∀ e ∈ b.bends t, e ≤ (b.bdata t).length) :
    b.lastEnd t ≤ (b.bdata t).length := by
  unfold lastEnd
  cases h : b.bends t with
  | nil => simp [List.getLastD]
  | cons x xs =>
      apply hend
      rw [h]
      exact getLastD_mem (x :: xs) 0 (by simp)

end IntervalColumnTBuilderMatrix

theorem flatMap_nil_of_all {α β : Type} (ts : List α) (f : α → List β)
    (h : ∀ t ∈ ts, f t = []) : ts.flatMap f = [] := by
  induction ts with
  | nil => rfl
  | cons t ts ih =>
      rw [List.flatMap_cons, h t (List.mem_cons_self _ _), List.nil_append]
      exact ih (fun u hu => h u (List.mem_cons_of_mem _ hu))

theorem flatMap_congr_mem {α β : Type} (ts : List α) (f g : α → List β)
    (h : ∀ t ∈ ts, f t = g t) : ts.flatMap f = ts.flatMap g := by
  induction ts with
  | nil => rfl
  | cons t ts ih =>
      rw [List.flatMap_cons, List.flatMap_cons, h t (List.mem_cons_self _ _),
        ih (fun u hu => h u (List.mem_cons_of_mem _ hu))]

theorem vtype_mem_typeOrderList (x : StorageValueT) : x.vtype ∈ typeOrderList := by
  cases x <;> simp [StorageValueT.vtype, typeOrderList]

/-- A strictly sorted segment is the concatenation, over the storage types in
their fixed order, of its per-type filters. -/
theorem flatMap_filter_aux :
    ∀ (seg : List StorageValueT) (ts : List StorageTypeName),
      List.Pairwise svLt seg →
      (∀ x ∈ seg, x.vtype ∈ ts) →
      List.Pairwise (fun a b => a.rank < b.rank) ts →
      ts.flatMap (fun t => seg.filter (fun v => v.vtype = t)) = seg := by
  intro seg
  induction seg with
  | nil =>
      intro ts _ _ _
      exact flatMap_nil_of_all ts _ (fun _ _ => rfl)
  | cons v rest ih =>
      intro ts hp hmem hts
      obtain ⟨ts1, ts2, rfl⟩ := List.append_of_mem (hmem v (List.mem_cons_self _ _))
      have hvrest : ∀ x ∈ rest, svLt v x := (List.pairwise_cons.mp hp).1
      have hprest : List.Pairwise svLt rest := (List.pairwise_cons.mp hp).2
      have hts' := List.pairwise_append.mp hts
      have hts1lt : ∀ t1 ∈ ts1, t1.rank < v.vtype.rank :=
        fun t1 h1 => hts'.2.2 t1 h1 v.vtype (List.mem_cons_self _ _)
      have hge : ∀ x ∈ v :: rest, v.vtype.rank ≤ x.vtype.rank := by
        intro x hx
        rcases List.mem_cons.mp hx with heq | hx
        · rw [heq]
        · exact svLt_rank_le (hvrest x hx)
      have hf1 : ∀ t1 ∈ ts1, (v :: rest).filter (fun x => x.vtype = t1) = [] := by
        intro t1 h1
        rw [List.filter_eq_nil]
        intro x hx
        have h2 := hge x hx
        have h3 := hts1lt t1 h1
        simp only [decide_eq_true_eq]
        intro hc
        rw [hc] at h2
        omega
      have hmem' : ∀ x ∈ rest, x.vtype ∈ v.vtype :: ts2 := by
        intro x hx
        have hx' := hmem x (List.mem_cons_of_mem _ hx)
        rcases List.mem_append.mp hx' with h1 | h2
        · exfalso
          have h3 := hts1lt _ h1
          have h4 := svLt_rank_le (hvrest x hx)
          omega
        · exact h2
      have hts2 : List.Pairwise (fun a b : StorageTypeName => a.rank < b.rank)
          (v.vtype :: ts2) := hts'.2.1
      rw [List.flatMap_append, flatMap_nil_of_all ts1 _ hf1, List.nil_append,
        List.flatMap_cons]
      have hfv : (v :: rest).filter (fun x => x.vtype = v.vtype) =
          v :: rest.filter (fun x => x.vtype = v.vtype) := by
        simp [List.filter_cons]
      have hvts2 : ∀ t2 ∈ ts2, v.vtype.rank < t2.rank :=
        (List.pairwise_cons.mp hts2).1
      have hf2 : ts2.flatMap (fun t => (v :: rest).filter (fun x => x.vtype = t)) =
          ts2.flatMap (fun t => rest.filter (fun x => x.vtype = t)) := by
        apply flatMap_congr_mem
        intro t2 h2
        rw [List.filter_cons]
        have : ¬ v.vtype = t2 := by
          intro hc
          have := hvts2 t2 h2
          rw [hc] at this
          omega
        simp [this]
      rw [hfv, hf2, List.cons_append]
      have hrest := ih (v.vtype :: ts2) hprest hmem' hts2
      rw [List.flatMap_cons] at hrest
      rw [hrest]

theorem flatMap_filter_of_sorted (seg : List StorageValueT)
    (h : List.Chain' svLt seg) :
    typeOrderList.flatMap (fun t => seg.filter (fun v => v.vtype = t)) = seg :=
  flatMap_filter_aux seg typeOrderList (List.chain'_iff_pairwise.mp h)
    (fun x _ => vtype_mem_typeOrderList x) (by decide)

theorem interval_bounds_inv (col : IntervalColumn) (p s e : Nat)
    (h : col.interval_bounds p = some (s, e)) :
    col.interval_lookup.get? p = some e ∧ s < e ∧ s = col.intervalStart p := by
  unfold IntervalColumn.interval_bounds at h
  cases hg : col.interval_lookup.get? p with
  | none => rw [hg] at h; simp at h
  | some e' =>
      rw [hg] at h
      simp only at h
      split at h
      · next hlt =>
          rw [Option.some.injEq, Prod.mk.injEq] at h
          obtain ⟨hs, he⟩ := h
          refine ⟨?_, ?_, ?_⟩
          · rw [he]
          · rw [← hs, ← he]
            exact hlt
          · exact hs.symm
      · simp at h

theorem interval_bounds_mk (col : IntervalColumn) (p e : Nat)
    (hg : col.interval_lookup.get? p = some e)
    (hlt : col.intervalStart p < e) :
    col.interval_bounds p = some (col.intervalStart p, e) := by
  unfold IntervalColumn.interval_bounds
  rw [hg]
  simp only [if_pos hlt]

theorem interval_bounds_none (col : IntervalColumn) (p e : Nat)
    (hg : col.interval_lookup.get? p = some e)
    (hlt : ¬ col.intervalStart p < e) :
    col.interval_bounds p = none := by
  unfold IntervalColumn.interval_bounds
  rw [hg]
  simp only [if_neg hlt]

namespace IntervalColumnTBuilderMatrix

theorem finalize_bounds (b : IntervalColumnTBuilderMatrix) (t : StorageTypeName)
    (p : Nat) :
    b.finalize.interval_bounds t p =
      IntervalColumn.interval_bounds ⟨b.bdata t, b.bends t⟩ p := by
  unfold IntervalColumnT.interval_bounds
  rw [columnOf_finalize]

/-- Committing a value does not change any closed interval. -/
theorem combinedInterval_route (b : IntervalColumnTBuilderMatrix)
    (c : StorageValueT)
    (hend : ∀ t, ∀ e ∈ b.bends t, e ≤ (b.bdata t).length) (p : Nat) :
    (b.route c).finalize.combinedInterval p = b.finalize.combinedInterval p := by
  unfold IntervalColumnT.combinedInterval
  apply flatMap_congr_mem
  intro t _
  have hbounds : (b.route c).finalize.interval_bounds t p =
      b.finalize.interval_bounds t p := by
    rw [finalize_bounds, finalize_bounds, bends_route]
    exact interval_bounds_data_free _ _ _ _
  rw [hbounds]
  cases hb : b.finalize.interval_bounds t p with
  | none => rfl
  | some se =>
      rw [dataOf_finalize, dataOf_finalize]
      by_cases ht : t = c.vtype
      · subst ht
        rw [bdata_route_self]
        apply sliceD_append
        rw [finalize_bounds] at hb
        have hmem : se.2 ∈ b.bends c.vtype := by
          have := (interval_bounds_inv _ _ _ _ hb).1
          exact List.get?_mem this
        exact hend c.vtype se.2 hmem
      · rw [bdata_route_other b c ht]

end IntervalColumnTBuilderMatrix

namespace IntervalColumnTBuilderMatrix

theorem bends_cacheSet (b : IntervalColumnTBuilderMatrix) (o : Option StorageValueT)
    (t : StorageTypeName) :
    ({ b with current_data_item := o }).bends t = b.bends t := by
  cases t <;> rfl

theorem bdata_cacheSet (b : IntervalColumnTBuilderMatrix) (o : Option StorageValueT)
    (t : StorageTypeName) :
    ({ b with current_data_item := o }).bdata t = b.bdata t := by
  cases t <;> rfl

theorem finalize_cacheSet (b : IntervalColumnTBuilderMatrix)
    (o : Option StorageValueT) :
    ({ b with current_data_item := o }).finalize = b.finalize := rfl

theorem openSlice_cacheSet (b : IntervalColumnTBuilderMatrix)
    (o : Option StorageValueT) (t : StorageTypeName) :
    ({ b with current_data_item := o }).openSlice t = b.openSlice t := by
  cases t <;> rfl

theorem openSlice_route_self (b : IntervalColumnTBuilderMatrix) (c : StorageValueT)
    (hle : b.lastEnd c.vtype ≤ (b.bdata c.vtype).length) :
    (b.route c).openSlice c.vtype = b.openSlice c.vtype ++ [c] := by
  unfold openSlice lastEnd
  rw [bends_route, bdata_route_self]
  unfold lastEnd at hle
  exact List.drop_append_of_le_length hle

theorem openSlice_route_other (b : IntervalColumnTBuilderMatrix)
    (c : StorageValueT) {t : StorageTypeName} (h : t ≠ c.vtype) :
    (b.route c).openSlice t = b.openSlice t := by
  unfold openSlice lastEnd
  rw [bends_route, bdata_route_other b c h]

end IntervalColumnTBuilderMatrix

open IntervalColumnTBuilderMatrix in
theorem matrixInv_default : MatrixInv (default : IntervalColumnTBuilderMatrix) := by
  have hbends : ∀ t, (default : IntervalColumnTBuilderMatrix).bends t = [] := by
    intro t
    cases t <;> rfl
  refine ⟨?_, ?_, ?_, [], List.chain'_nil, ?_, ?_, ?_⟩
  · intro t e he
    rw [hbends t] at he
    exact absurd he (List.not_mem_nil e)
  · intro t t'
    rw [hbends t, hbends t']
  · intro p
    have hnone : ∀ t, (default : IntervalColumnTBuilderMatrix).finalize.interval_bounds t p = none := by
      intro t
      rw [finalize_bounds]
      exact interval_bounds_past _ _ _ (by rw [hbends t]; exact Nat.zero_le p)
    unfold IntervalColumnT.combinedInterval
    rw [flatMap_nil_of_all _ _ (fun t _ => by rw [hnone t])]
    exact List.chain'_nil
  · intro t
    cases t <;> rfl
  · intro x hx
    exact absurd hx (List.not_mem_nil x)
  · intro
    rfl

open IntervalColumnTBuilderMatrix in
/-- `add_value` preserves the matrix-build invariant, provided the incoming
value is at least the cached one (the sortedness of the buffer within one
predecessor block). -/
theorem matrixInv_add (b : IntervalColumnTBuilderMatrix) (v : StorageValueT)
    (hb : MatrixInv b)
    (hcc : ∀ cval, b.current_data_item = some cval → svLe cval v) :
    MatrixInv (b.add_value v).2 := by
  obtain ⟨hend, heq, hclosed, seg, hseg, hopen, hdom, hnil⟩ := hb
  cases hc : b.current_data_item with
  | none =>
      rw [add_value_none b v hc]
      have hsegnil := hnil hc
      subst hsegnil
      refine ⟨?_, ?_, ?_, [], List.chain'_nil, ?_, ?_, ?_⟩
      · intro t e he
        rw [bends_cacheSet] at he
        rw [bdata_cacheSet]
        exact hend t e he
      · intro t t'
        rw [bends_cacheSet, bends_cacheSet]
        exact heq t t'
      · intro p
        rw [finalize_cacheSet]
        exact hclosed p
      · intro t
        rw [openSlice_cacheSet]
        exact hopen t
      · intro x hx
        exact absurd hx (List.not_mem_nil x)
      · intro h
        rfl
  | some cval =>
      by_cases hv : cval = v
      · rw [hv] at hc
        rw [add_value_same b v hc]
        exact ⟨hend, heq, hclosed, seg, hseg, hopen, hdom, hnil⟩
      · rw [add_value_diff b v cval hc hv, commit_value_some b cval hc]
        have hlast : ∀ x ∈ seg, svLt x cval := fun x hx => hdom x hx cval hc
        have hltv : svLt cval v := svLt_of_svLe_ne (hcc cval hc) hv
        refine ⟨?_, ?_, ?_, seg ++ [cval], ?_, ?_, ?_, ?_⟩
        · intro t e he
          rw [bends_cacheSet, bends_route] at he
          rw [bdata_cacheSet]
          have h1 := hend t e he
          by_cases ht : t = cval.vtype
          · subst ht
            rw [bdata_route_self]
            rw [List.length_append]
            omega
          · rw [bdata_route_other b cval ht]
            exact h1
        · intro t t'
          simp only [bends_cacheSet, bends_route]
          exact heq t t'
        · intro p
          rw [finalize_cacheSet, combinedInterval_route b cval hend p]
          exact hclosed p
        · refine List.chain'_append.mpr ⟨hseg, List.chain'_singleton _, ?_⟩
          intro x hx y hy
          simp only [List.head?_cons, Option.mem_def, Option.some.injEq] at hy
          subst hy
          exact hlast x (List.mem_of_mem_getLast? hx)
        · intro t
          rw [openSlice_cacheSet]
          by_cases ht : t = cval.vtype
          · subst ht
            rw [openSlice_route_self b cval (lastEnd_le b cval.vtype (hend cval.vtype)),
              hopen, List.filter_append]
            simp
          · rw [openSlice_route_other b cval ht, hopen, List.filter_append]
            have : ([cval].filter (fun x => x.vtype = t)) = [] := by
              simp [List.filter_cons]
              intro hc2
              exact absurd hc2.symm ht
            rw [this, List.append_nil]
        · intro x hx cval' hcv'
          simp only [Option.some.injEq] at hcv'
          subst hcv'
          rcases List.mem_append.mp hx with hxs | hxc
          · exact svLt_trans (hlast x hxs) hltv
          · rw [List.mem_singleton.mp hxc]
            exact hltv
        · intro hnone
          simp at hnone

open IntervalColumnTBuilderMatrix in
/-- After committing the cached value: interval ends stay bounded, the
interval counts stay aligned across the storage types, closed intervals stay
sorted, and the open segment is the per-type filter of one strictly sorted
list. -/
theorem commit_inv (b : IntervalColumnTBuilderMatrix) (hb : MatrixInv b) :
    (∀ t, ∀ e ∈ b.commit_value.bends t, e ≤ (b.commit_value.bdata t).length) ∧
    (∀ t t', (b.commit_value.bends t).length = (b.commit_value.bends t').length) ∧
    (∀ p, List.Chain' svLt (b.commit_value.finalize.combinedInterval p)) ∧
    (∃ seg : List StorageValueT, List.Chain' svLt seg ∧
      ∀ t, b.commit_value.openSlice t = seg.filter (fun v => v.vtype = t)) := by
  obtain ⟨hend, heq, hclosed, seg, hseg, hopen, hdom, hnil⟩ := hb
  cases hc : b.current_data_item with
  | none =>
      rw [commit_value_none b hc]
      exact ⟨hend, heq, hclosed, seg, hseg, hopen⟩
  | some cval =>
      rw [commit_value_some b cval hc]
      have hlast : ∀ x ∈ seg, svLt x cval := fun x hx => hdom x hx cval hc
      refine ⟨?_, ?_, ?_, seg ++ [cval], ?_, ?_⟩
      · intro t e he
        rw [bends_route] at he
        have h1 := hend t e he
        by_cases ht : t = cval.vtype
        · subst ht
          rw [bdata_route_self, List.length_append]
          omega
        · rw [bdata_route_other b cval ht]
          exact h1
      · intro t t'
        simp only [bends_route]
        exact heq t t'
      · intro p
        rw [combinedInterval_route b cval hend p]
        exact hclosed p
      · refine List.chain'_append.mpr ⟨hseg, List.chain'_singleton _, ?_⟩
        intro x hx y hy
        simp only [List.head?_cons, Option.mem_def, Option.some.injEq] at hy
        subst hy
        exact hlast x (List.mem_of_mem_getLast? hx)
      · intro t
        by_cases ht : t = cval.vtype
        · subst ht
          rw [openSlice_route_self b cval (lastEnd_le b cval.vtype (hend cval.vtype)),
            hopen, List.filter_append]
          simp
        · rw [openSlice_route_other b cval ht, hopen, List.filter_append]
          have : ([cval].filter (fun x => x.vtype = t)) = [] := by
            simp [List.filter_cons]
            intro hc2
            exact absurd hc2.symm ht
          rw [this, List.append_nil]

open IntervalColumnTBuilderMatrix in
/-- `finish_interval` preserves the matrix-build invariant: the freshly closed
interval is exactly the (strictly sorted) open segment. -/
theorem matrixInv_finish (b : IntervalColumnTBuilderMatrix) (hb : MatrixInv b) :
    MatrixInv b.finish_interval := by
  obtain ⟨hend, heq, hclosed, seg, hseg, hopen⟩ := commit_inv b hb
  refine ⟨?_, ?_, ?_, [], List.chain'_nil, ?_, ?_, ?_⟩
  · intro t e he
    rw [bends_finish] at he
    rw [bdata_finish]
    rcases List.mem_append.mp he with h1 | h1
    · exact hend t e h1
    · rw [List.mem_singleton.mp h1]
  · intro t t'
    rw [bends_finish, bends_finish, List.length_append, List.length_append,
      heq t t']
    rfl
  · intro p
    have hbnds : ∀ t, b.finish_interval.finalize.interval_bounds t p =
        IntervalColumn.interval_bounds
          ⟨b.commit_value.bdata t,
            b.commit_value.bends t ++ [(b.commit_value.bdata t).length]⟩ p := by
      intro t
      rw [finalize_bounds, bdata_finish, bends_finish]
    rcases lt_trichotomy p (b.commit_value.bends StorageTypeName.id32).length
      with hp | hp | hp
    · have hsame : b.finish_interval.finalize.combinedInterval p =
          b.commit_value.finalize.combinedInterval p := by
        unfold IntervalColumnT.combinedInterval
        apply flatMap_congr_mem
        intro t _
        have hplen : p < (b.commit_value.bends t).length := by
          rw [heq t StorageTypeName.id32]
          exact hp
        have hbb : b.finish_interval.finalize.interval_bounds t p =
            b.commit_value.finalize.interval_bounds t p := by
          rw [hbnds t, interval_bounds_concat _ _ _ _ hplen, finalize_bounds]
        have hd : b.finish_interval.finalize.dataOf t =
            b.commit_value.finalize.dataOf t := by
          rw [dataOf_finalize, dataOf_finalize, bdata_finish]
        rw [hbb, hd]
      rw [hsame]
      exact hclosed p
    · unfold IntervalColumnT.combinedInterval
      have h1 : typeOrderList.flatMap
          (fun t => match b.finish_interval.finalize.interval_bounds t p with
            | none => []
            | some se => sliceD (b.finish_interval.finalize.dataOf t) se.1 se.2) =
          typeOrderList.flatMap (fun t => seg.filter (fun v => v.vtype = t)) := by
        apply flatMap_congr_mem
        intro t _
        have hplen : p = (b.commit_value.bends t).length := by
          rw [heq t StorageTypeName.id32]
          exact hp
        have hdof : b.finish_interval.finalize.dataOf t = b.commit_value.bdata t := by
          rw [dataOf_finalize, bdata_finish]
        rw [hbnds t, hplen, interval_bounds_concat_last]
        by_cases hlt : (b.commit_value.bends t).getLastD 0 <
            (b.commit_value.bdata t).length
        · rw [if_pos hlt]
          simp only
          rw [hdof, sliceD_full]
          have hop := hopen t
          unfold openSlice lastEnd at hop
          exact hop
        · rw [if_neg hlt]
          have hle : b.commit_value.lastEnd t ≤ (b.commit_value.bdata t).length :=
            lastEnd_le b.commit_value t (hend t)
          unfold lastEnd at hle
          have heqq : (b.commit_value.bends t).getLastD 0 =
              (b.commit_value.bdata t).length :=
            le_antisymm hle (Nat.le_of_not_lt hlt)
          have hop := hopen t
          unfold openSlice lastEnd at hop
          rw [heqq, List.drop_length] at hop
          exact hop
      rw [h1, flatMap_filter_of_sorted seg hseg]
      exact hseg
    · have hnone : ∀ t, b.finish_interval.finalize.interval_bounds t p = none := by
        intro t
        rw [hbnds t]
        apply interval_bounds_past
        rw [List.length_append, List.length_singleton, heq t StorageTypeName.id32]
        omega
      unfold IntervalColumnT.combinedInterval
      rw [flatMap_nil_of_all _ _ (fun t _ => by rw [hnone t])]
      exact List.chain'_nil
  · intro t
    have h1 : b.finish_interval.lastEnd t = (b.commit_value.bdata t).length := by
      unfold lastEnd
      rw [bends_finish, getLastD_concat]
    unfold openSlice
    rw [h1, bdata_finish, List.drop_length]
    rfl
  · intro x hx
    exact absurd hx (List.not_mem_nil x)
  · intro
    rfl

theorem matrixColumnLoop_nil (b : IntervalColumnTBuilderMatrix) (bounds : List Nat)
    (j : Nat) (acc : List Nat) :
    matrixColumnLoop b bounds j [] acc = (b.finish_interval, acc) := rfl

theorem matrixColumnLoop_cons (b : IntervalColumnTBuilderMatrix) (bounds : List Nat)
    (j : Nat) (v : StorageValueT) (rest : List StorageValueT) (acc : List Nat) :
    matrixColumnLoop b bounds j (v :: rest) acc =
      matrixColumnLoop
        ((if bounds.head? = some j then b.finish_interval else b).add_value v).2
        (if bounds.head? = some j then bounds.tail else bounds) (j + 1) rest
        (if ((if bounds.head? = some j then b.finish_interval else b).add_value v).1
              ∧ 0 < j
          then acc ++ [j] else acc) := by
  rw [matrixColumnLoop]

/-- One step of the boundary accumulator: appending the current position (or
not) keeps the accumulator strictly increasing and bounded, and preserves the
old members. -/
theorem accStep (acc : List Nat) (j : Nat) (cond : Prop) [Decidable cond]
    (hch : List.Chain' (fun a b => a < b) acc) (hb : ∀ x ∈ acc, x < j) :
    List.Chain' (fun a b => a < b) (if cond then acc ++ [j] else acc) ∧
    (∀ x ∈ (if cond then acc ++ [j] else acc), x < j + 1) ∧
    (∀ x ∈ acc, x ∈ (if cond then acc ++ [j] else acc)) := by
  by_cases h : cond
  · rw [if_pos h]
    refine ⟨?_, ?_, ?_⟩
    · refine List.chain'_append.mpr ⟨hch, List.chain'_singleton _, ?_⟩
      intro x hx y hy
      simp only [List.head?_cons, Option.mem_def, Option.some.injEq] at hy
      subst hy
      exact hb x (List.mem_of_mem_getLast? hx)
    · intro x hx
      rcases List.mem_append.mp hx with h1 | h1
      · have := hb x h1
        omega
      · rw [List.mem_singleton.mp h1]
        omega
    · intro x hx
      exact List.mem_append_left _ hx
  · rw [if_neg h]
    refine ⟨hch, ?_, fun x hx => hx⟩
    intro x hx
    have := hb x hx
    omega

open IntervalColumnTBuilderMatrix in
/-- Main loop invariant of one column pass of `Trie::from_tuple_buffer`: given
sorted rows, a boundary list aligned with the prefix changes, and a builder in
the invariant state, the pass keeps the invariant, and the produced boundary
list is strictly increasing, bounded, and fires at every position whose
length-`(c+1)` prefix changes. -/
theorem matrixLoop_main (c : Nat) :
    ∀ (rows : List (List StorageValueT)) (b : IntervalColumnTBuilderMatrix)
      (bounds : List Nat) (j : Nat) (prev : Option (List StorageValueT))
      (acc : List Nat),
      MatrixInv b →
      (∀ v, b.current_data_item = some v →
        ∃ p, prev = some p ∧ v = p.getD c default) →
      (∀ p, prev = some p → 0 < j ∧ c < p.length) →
      (∀ r ∈ rows, c < r.length) →
      CoverRun c bounds j prev rows →
      LinkChain prev rows →
      List.Chain' (fun a b => a < b) acc →
      (∀ x ∈ acc, x < j) →
      MatrixInv (matrixColumnLoop b bounds j
          (rows.map (fun r => r.getD c default)) acc).1 ∧
      (∀ x ∈ acc, x ∈ (matrixColumnLoop b bounds j
          (rows.map (fun r => r.getD c default)) acc).2) ∧
      List.Chain' (fun a b => a < b) (matrixColumnLoop b bounds j
          (rows.map (fun r => r.getD c default)) acc).2 ∧
      (∀ x ∈ (matrixColumnLoop b bounds j
          (rows.map (fun r => r.getD c default)) acc).2, x < j + rows.length) ∧
      (∀ k, k < rows.length → changeAt c prev rows k →
        (j + k) ∈ (matrixColumnLoop b bounds j
          (rows.map (fun r => r.getD c default)) acc).2) := by
  intro rows
  induction rows with
  | nil =>
      intro b bounds j prev acc hinv hcache hprev hlen hcover hlink hacch haccb
      simp only [List.map_nil, matrixColumnLoop_nil]
      refine ⟨matrixInv_finish b hinv, fun x hx => hx, hacch, ?_, ?_⟩
      · intro x hx
        exact haccb x hx
      · intro k hk
        exact absurd hk (Nat.not_lt_zero k)
  | cons r rest ih =>
      intro b bounds j prev acc hinv hcache hprev hlen hcover hlink hacch haccb
      have hcov' : (∀ p, prev = some p → r.take c ≠ p.take c →
            bounds.head? = some j) ∧
          CoverRun c (if bounds.head? = some j then bounds.tail else bounds)
            (j + 1) (some r) rest := hcover
      simp only [List.map_cons]
      rw [matrixColumnLoop_cons]
      have hinv1 : MatrixInv (if bounds.head? = some j then b.finish_interval else b) := by
        by_cases hf : bounds.head? = some j
        · rw [if_pos hf]
          exact matrixInv_finish b hinv
        · rw [if_neg hf]
          exact hinv
      have hcc : ∀ cval,
          (if bounds.head? = some j then b.finish_interval else b).current_data_item
            = some cval → svLe cval (r.getD c default) := by
        by_cases hf : bounds.head? = some j
        · rw [if_pos hf]
          intro cval hcv
          rw [finish_cache] at hcv
          exact absurd hcv (by simp)
        · rw [if_neg hf]
          intro cval hcv
          obtain ⟨p, hp, hv⟩ := hcache cval hcv
          have htk : r.take c = p.take c := by
            by_contra hne
            exact hf (hcov'.1 p hp hne)
          have hrle : rowLe p r := by
            have h2 : List.Chain' rowLe (p :: r :: rest) := by
              rw [hp] at hlink
              exact hlink
            exact (List.chain'_cons.mp h2).1
          rw [hv]
          exact rowLe_getD c p r hrle htk.symm (hprev p hp).2
            (hlen r (List.mem_cons_self r rest))
      have pre1 : MatrixInv
          ((if bounds.head? = some j then b.finish_interval else b).add_value
            (r.getD c default)).2 :=
        matrixInv_add _ _ hinv1 hcc
      have pre2 : ∀ w,
          ((if bounds.head? = some j then b.finish_interval else b).add_value
            (r.getD c default)).2.current_data_item = some w →
          ∃ p, some r = some p ∧ w = p.getD c default := by
        intro w hw
        rw [add_value_cache] at hw
        simp only [Option.some.injEq] at hw
        exact ⟨r, rfl, hw.symm⟩
      have pre3 : ∀ p, some r = some p → 0 < j + 1 ∧ c < p.length := by
        intro p hp
        injection hp with hp
        subst hp
        exact ⟨Nat.succ_pos j, hlen r (List.mem_cons_self r rest)⟩
      have pre4 : ∀ r' ∈ rest, c < r'.length :=
        fun r' h => hlen r' (List.mem_cons_of_mem r h)
      have pre6 : LinkChain (some r) rest := by
        cases hpv : prev with
        | none =>
            rw [hpv] at hlink
            exact hlink
        | some p =>
            have h2 : List.Chain' rowLe (p :: r :: rest) := by
              rw [hpv] at hlink
              exact hlink
            exact h2.tail
      obtain ⟨hA1, hA2, hA3⟩ := accStep acc j
        (((if bounds.head? = some j then b.finish_interval else b).add_value
          (r.getD c default)).1 = true ∧ 0 < j) hacch haccb
      obtain ⟨I1, I2, I3, I4, I5⟩ := ih
        ((if bounds.head? = some j then b.finish_interval else b).add_value
          (r.getD c default)).2
        (if bounds.head? = some j then bounds.tail else bounds) (j + 1) (some r)
        (if ((if bounds.head? = some j then b.finish_interval else b).add_value
              (r.getD c default)).1 ∧ 0 < j
          then acc ++ [j] else acc)
        pre1 pre2 pre3 pre4 hcov'.2 pre6 hA1 hA2
      refine ⟨I1, ?_, I3, ?_, ?_⟩
      · intro x hx
        exact I2 x (hA3 x hx)
      · intro x hx
        have := I4 x hx
        simp only [List.length_cons]
        omega
      · intro k hk hchg
        cases k with
        | zero =>
            have hchg2 : ∃ p, prevRowAt prev (r :: rest) 0 = some p ∧
                ((r :: rest).getD 0 []).take (c + 1) ≠ p.take (c + 1) := hchg
            obtain ⟨p, hp, hne⟩ := hchg2
            have hp' : prev = some p := hp
            have hne' : r.take (c + 1) ≠ p.take (c + 1) := hne
            have hj : 0 < j := (hprev p hp').1
            have hnv1 : ((if bounds.head? = some j then b.finish_interval else b).add_value
                (r.getD c default)).1 = true := by
              by_cases hf : bounds.head? = some j
              · rw [if_pos hf, add_value_none _ _ (finish_cache b)]
              · rw [if_neg hf]
                cases hcb : b.current_data_item with
                | none => rw [add_value_none _ _ hcb]
                | some cval =>
                    obtain ⟨p', hp2, hv2⟩ := hcache cval hcb
                    have hpp : p' = p := by
                      rw [hp'] at hp2
                      injection hp2 with h
                      exact h.symm
                    have htk : r.take c = p.take c := by
                      by_contra hne2
                      exact hf (hcov'.1 p hp' hne2)
                    have hgetne : p.getD c default ≠ r.getD c default :=
                      getD_ne_of_take_succ_ne (hprev p hp').2
                        (hlen r (List.mem_cons_self r rest)) htk.symm
                        (fun h => hne' h.symm)
                    have hcvne : cval ≠ r.getD c default := by
                      rw [hv2, hpp]
                      exact hgetne
                    rw [add_value_diff b _ cval hcb hcvne]
            have hjmem : j ∈ (if ((if bounds.head? = some j then b.finish_interval
                  else b).add_value (r.getD c default)).1 ∧ 0 < j
                then acc ++ [j] else acc) := by
              rw [if_pos ⟨hnv1, hj⟩]
              exact List.mem_append_right acc (List.mem_singleton.mpr rfl)
            exact I2 j hjmem
        | succ k =>
            have hk' : k < rest.length := by
              simp only [List.length_cons] at hk
              omega
            have hchg2 : ∃ p, prevRowAt prev (r :: rest) (k + 1) = some p ∧
                ((r :: rest).getD (k + 1) []).take (c + 1) ≠ p.take (c + 1) := hchg
            obtain ⟨p, hp, hne⟩ := hchg2
            have hp' : some ((r :: rest).getD k []) = some p := hp
            have hchg' : changeAt c (some r) rest k := by
              cases k with
              | zero => exact ⟨p, hp', hne⟩
              | succ k2 => exact ⟨p, hp', hne⟩
            have hmem := I5 k hk' hchg'
            have harith : j + (k + 1) = (j + 1) + k := by omega
            rw [harith]
            exact hmem

theorem head_of_mem_sorted (bounds : List Nat) (j : Nat)
    (hch : List.Chain' (fun a b => a < b) bounds)
    (hlb : ∀ x ∈ bounds, j ≤ x) (hmem : j ∈ bounds) :
    bounds.head? = some j := by
  cases bounds with
  | nil => exact absurd hmem (List.not_mem_nil j)
  | cons x bs =>
      rcases List.mem_cons.mp hmem with h | h
      · rw [h]
        rfl
      · have hpw := List.chain'_iff_pairwise.mp hch
        have hxj : x < j := (List.pairwise_cons.mp hpw).1 j h
        have := hlb x (List.mem_cons_self x bs)
        omega

/-- A strictly increasing boundary list whose entries are not behind the
cursor, and which contains every position at which the length-`c` prefix
changes, drives the loop correctly (`CoverRun`). -/
theorem coverRun_of_mem (c : Nat) :
    ∀ (rows : List (List StorageValueT)) (bounds : List Nat) (j : Nat)
      (prev : Option (List StorageValueT)),
      List.Chain' (fun a b => a < b) bounds →
      (∀ x ∈ bounds, j ≤ x) →
      (∀ k, k < rows.length → ∀ p, prevRowAt prev rows k = some p →
        (rows.getD k []).take c ≠ p.take c → (j + k) ∈ bounds) →
      CoverRun c bounds j prev rows := by
  intro rows
  induction rows with
  | nil =>
      intro bounds j prev _ _ _
      exact trivial
  | cons r rest ih =>
      intro bounds j prev hch hlb hmem
      refine ⟨?_, ?_⟩
      · intro p hp hne
        have hj : j ∈ bounds :=
          hmem 0 (by simp only [List.length_cons]; omega) p hp hne
        exact head_of_mem_sorted bounds j hch hlb hj
      · by_cases hf : bounds.head? = some j
        · rw [if_pos hf]
          cases bounds with
          | nil => exact absurd hf (by simp)
          | cons x bs =>
              have hx : x = j := by
                simp only [List.head?_cons, Option.some.injEq] at hf
                exact hf
              subst hx
              have hpw := List.chain'_iff_pairwise.mp hch
              have hbs : ∀ y ∈ bs, x < y := (List.pairwise_cons.mp hpw).1
              refine ih bs (x + 1) (some r) hch.tail (fun y hy => hbs y hy) ?_
              intro k hk p hp hne
              have hp2 : prevRowAt prev (r :: rest) (k + 1) = some p := by
                cases k with
                | zero => exact hp
                | succ k2 => exact hp
              have h1 := hmem (k + 1) (by simp only [List.length_cons]; omega)
                p hp2 hne
              have hne2 : x + (k + 1) ≠ x := by omega
              rcases List.mem_cons.mp h1 with h2 | h2
              · exact absurd h2 hne2
              · have harith : x + 1 + k = x + (k + 1) := by omega
                rw [harith]
                exact h2
        · rw [if_neg hf]
          refine ih bounds (j + 1) (some r) hch ?_ ?_
          · intro y hy
            have h1 := hlb y hy
            rcases Nat.lt_or_ge j y with h2 | h2
            · omega
            · have hyj : y = j := by omega
              subst hyj
              exact absurd (head_of_mem_sorted bounds y hch hlb hy) hf
          · intro k hk p hp hne
            have hp2 : prevRowAt prev (r :: rest) (k + 1) = some p := by
              cases k with
              | zero => exact hp
              | succ k2 => exact hp
            have h1 := hmem (k + 1) (by simp only [List.length_cons]; omega)
              p hp2 hne
            have harith : j + 1 + k = j + (k + 1) := by omega
            rw [harith]
            exact h1

open IntervalColumnTBuilderMatrix in
/-- A builder in the invariant state finalizes to a good column. -/
theorem colGood_of_inv (b : IntervalColumnTBuilderMatrix) (hb : MatrixInv b) :
    ColGood b.finalize := by
  obtain ⟨hend, heq, hclosed, -⟩ := hb
  refine ⟨?_, hclosed⟩
  intro t p s e hbd
  rw [finalize_bounds] at hbd
  obtain ⟨hget, hlt, -⟩ := interval_bounds_inv _ _ _ _ hbd
  refine ⟨hlt, ?_⟩
  rw [dataOf_finalize]
  exact hend t e (List.get?_mem hget)

theorem colGood_default : ColGood (default : IntervalColumnT) := by
  have hnone : ∀ t p, (default : IntervalColumnT).interval_bounds t p = none := by
    intro t p
    cases t <;> rfl
  constructor
  · intro t p s e h
    rw [hnone t p] at h
    exact Option.noConfusion h
  · intro p
    unfold IntervalColumnT.combinedInterval
    rw [flatMap_nil_of_all _ _ (fun t _ => by rw [hnone t p])]
    exact List.chain'_nil

theorem fromAux_cons (rows : List (List StorageValueT)) (c : Nat) (cs : List Nat)
    (last : List Nat) :
    fromTupleBufferAux rows (c :: cs) last =
      (matrixColumnLoop default last 0
          (rows.map (fun r => r.getD c default)) []).1.finalize ::
        fromTupleBufferAux rows cs
          (matrixColumnLoop default last 0
            (rows.map (fun r => r.getD c default)) []).2 := by
  rw [fromTupleBufferAux]

/-- Outer induction of `Trie::from_tuple_buffer` over consecutive columns:
every produced layer is good, provided the incoming boundary list is strictly
increasing and covers the prefix changes of the current column. -/
theorem fromAux_good (rows : List (List StorageValueT))
    (hsorted : List.Chain' rowLe rows) :
    ∀ (n c : Nat) (last : List Nat),
      (∀ r ∈ rows, c + n ≤ r.length) →
      List.Chain' (fun a b => a < b) last →
      (∀ k, k < rows.length → ∀ p, prevRowAt none rows k = some p →
        (rows.getD k []).take c ≠ p.take c → k ∈ last) →
      ∀ col ∈ fromTupleBufferAux rows (List.range' c n) last, ColGood col := by
  intro n
  induction n with
  | zero =>
      intro c last _ _ _ col hcol
      exact absurd hcol (List.not_mem_nil col)
  | succ n ihn =>
      intro c last hlen hch hmem col hcol
      rw [List.range'_succ, fromAux_cons] at hcol
      have hclen : ∀ r ∈ rows, c < r.length := by
        intro r hr
        have := hlen r hr
        omega
      have hdc : (default : IntervalColumnTBuilderMatrix).current_data_item = none :=
        rfl
      have hcover : CoverRun c last 0 none rows := by
        refine coverRun_of_mem c rows last 0 none hch (fun x _ => Nat.zero_le x) ?_
        intro k hk p hp hne
        rw [Nat.zero_add]
        exact hmem k hk p hp hne
      obtain ⟨I1, I2, I3, I4, I5⟩ := matrixLoop_main c rows default last 0 none []
        matrixInv_default
        (fun v hv => by rw [hdc] at hv; exact Option.noConfusion hv)
        (fun p hp => Option.noConfusion hp)
        hclen hcover hsorted List.chain'_nil
        (fun x hx => absurd hx (List.not_mem_nil x))
      rcases List.mem_cons.mp hcol with hcol | hcol
      · rw [hcol]
        exact colGood_of_inv _ I1
      · refine ihn (c + 1)
          (matrixColumnLoop default last 0
            (rows.map (fun r => r.getD c default)) []).2 ?_ I3 ?_ col hcol
        · intro r hr
          have := hlen r hr
          omega
        · intro k hk p hp hne
          have hchg : changeAt c none rows k := ⟨p, hp, hne⟩
          have := I5 k hk hchg
          rwa [Nat.zero_add] at this

/-- C3 (amended): for every trie built by the matrix builder
(`Trie::from_tuple_buffer`, from a sorted tuple buffer whose rows have the
declared arity), every layer satisfies the claimed interval invariant: every
`interval_bounds` result is a non-empty sub-range of the data column of its
storage type, and the data of one predecessor, read across the storage types
in the fixed order `Id32 < Id64 < Int64 < Float < Double`, is strictly
sorted.  The unamended claim quantifies over any of the trie builders and is
refuted: the triescan builder mis-closes intervals. -/
theorem trie_matrix_intervals_sorted (arity : Nat)
    (rows : List (List StorageValueT))
    (hsorted : List.Chain' rowLe rows)
    (hlen : ∀ r ∈ rows, r.length = arity) :
    ∀ l : Nat,
      ColGood ((Trie.from_tuple_buffer arity rows).columns.getD l default) := by
  have hgood : ∀ col ∈ (Trie.from_tuple_buffer arity rows).columns, ColGood col := by
    show ∀ col ∈ fromTupleBufferAux rows (List.range arity) [], ColGood col
    rw [List.range_eq_range']
    refine fromAux_good rows hsorted arity 0 [] ?_ List.chain'_nil ?_
    · intro r hr
      rw [hlen r hr]
      omega
    · intro k hk p hp hne
      exact absurd rfl hne
  intro l
  by_cases hl : l < (Trie.from_tuple_buffer arity rows).columns.length
  · refine hgood _ ?_
    rw [List.getD_eq_getD_get?]
    cases hq : (Trie.from_tuple_buffer arity rows).columns.get? l with
    | none => exact absurd (List.get?_eq_none.mp hq) (by omega)
    | some x =>
        simp only [Option.getD_some]
        exact List.get?_mem hq
  · rw [List.getD_eq_default _ _ (Nat.le_of_not_lt hl)]
    exact colGood_default

/-- Witness for the amended C3 theorem: the mixed-type sorted table of the
`trie.rs` unit test, middle layer. -/
theorem trie_matrix_intervals_sorted_witness :
    ColGood ((Trie.from_tuple_buffer 3 rowsSortedMixed).columns.getD 1 default) :=
  trie_matrix_intervals_sorted 3 rowsSortedMixed (by decide) (by decide) 1
